import Mathlib

/-!
Verification of the stack-clean goroutine-dump grouping tool (src/main.go)
against its natural-language specification.

Lines of input are modelled as `List Char` (a `bufio.Scanner` line never
contains a newline character).  Each Go regular expression used by the
program is fully anchored (`^...$`) and is embedded as an executable
matcher implementing Go's leftmost-first, greedy-with-backtracking
submatch semantics; every matcher's doc comment records the regex it
embeds and how greediness is resolved.
-/

namespace StackClean

/-- Character class `\d` of the Go regexp package (ASCII digits). -/
def isDigitCh (c : Char) : Bool := '0' ≤ c && c ≤ '9'

/-- Character class `[0-9a-f]` used by `locationMatcher` for the offset. -/
def isLowerHexCh (c : Char) : Bool := isDigitCh c || ('a' ≤ c && c ≤ 'f')

/-- Go `unicode.IsSpace`: the White_Space ranges 0009-000D, 0020, 0085,
00A0, 1680, 2000-200A, 2028, 2029, 202F, 205F, 3000. -/
def goIsSpace (c : Char) : Bool :=
  let n := c.toNat
  (9 ≤ n && n ≤ 13) || n = 32 || n = 0x85 || n = 0xA0 || n = 0x1680 ||
  (0x2000 ≤ n && n ≤ 0x200A) || n = 0x2028 || n = 0x2029 ||
  n = 0x202F || n = 0x205F || n = 0x3000

/-- Go `strings.TrimSpace`: drop `unicode.IsSpace` characters from both ends. -/
def trimSpace (l : List Char) : List Char :=
  ((l.dropWhile goIsSpace).reverse.dropWhile goIsSpace).reverse

/-- Digit value of a character for `strconv.ParseUint` (0-9, a-z, A-Z);
any other character gets the sentinel 100, larger than every base. -/
def digitValCh (c : Char) : Nat :=
  if '0' ≤ c && c ≤ '9' then c.toNat - '0'.toNat
  else if 'a' ≤ c && c ≤ 'z' then c.toNat - 'a'.toNat + 10
  else if 'A' ≤ c && c ≤ 'Z' then c.toNat - 'A'.toNat + 10
  else 100

/-- Digit loop of `strconv.ParseUint` with `bitSize = 64`: scan left to
right; an invalid digit yields `(0, false)` (syntax error), a value
reaching `2^64` yields `(2^64 - 1, false)` (range error), otherwise the
accumulated value with `true`. -/
def puLoop (base acc : Nat) : List Char → Nat × Bool
  | [] => (acc, true)
  | c :: cs =>
    if digitValCh c < base then
      if base * acc + digitValCh c < 2 ^ 64 then
        puLoop base (base * acc + digitValCh c) cs
      else (2 ^ 64 - 1, false)
    else (0, false)

/-- Go `strconv.ParseUint(s, 0, 64)`: base detected from the text — a
`0x`/`0X` lead means hexadecimal, `0b`/`0o` binary/octal, a bare leading
`0` means octal, otherwise decimal.  (Go additionally permits well-placed
underscores when the base argument is 0; the captures this program feeds
in match `\d+` or `0x[0-9a-f]+` and never contain one, and here an
underscore is simply an invalid digit.) -/
def parseUint0 : List Char → Nat × Bool
  | [] => (0, false)
  | c :: rest =>
    if c = '0' then
      match rest with
      | [] => (0, true)
      | c2 :: ds =>
        if c2 = 'x' ∨ c2 = 'X' then
          (if ds = [] then (0, false) else puLoop 16 0 ds)
        else if c2 = 'b' ∨ c2 = 'B' then
          (if ds = [] then (0, false) else puLoop 2 0 ds)
        else if c2 = 'o' ∨ c2 = 'O' then
          (if ds = [] then (0, false) else puLoop 8 0 ds)
        else puLoop 8 0 (c2 :: ds)
    else puLoop 10 0 (c :: rest)

/-- `parser.digits` of src/main.go: the empty capture is 0 without an
error; otherwise `strconv.ParseUint(s, 0, 64)`, whose failure latches the
parse error (modelled as `none`; the first-error-latching accumulator is
equivalent to short-circuiting because no later step can clear it and a
successful parse never takes a latched path). -/
def digits (s : List Char) : Option Nat :=
  if s = [] then some 0
  else match parseUint0 s with
    | (n, true) => some n
    | (_, false) => none

/-- Go conversion `int(u)` of a `uint64` value to a 64-bit signed int. -/
def toInt64 (n : Nat) : Int :=
  if n < 2 ^ 63 then (n : Int) else (n : Int) - 2 ^ 64

/-- Strict bytewise comparison `<` of Go strings (UTF-8 is order
preserving, so codepoint-lexicographic order over the characters agrees
with Go's byte order). -/
def lexLt : List Char → List Char → Bool
  | [], [] => false
  | [], _ :: _ => true
  | _ :: _, [] => false
  | a :: as, b :: bs => if a < b then true else if a = b then lexLt as bs else false

/-- Strip an expected literal lead from a line, returning the remainder. -/
def stripLead : List Char → List Char → Option (List Char)
  | [], r => some r
  | _ :: _, [] => none
  | p :: ps, c :: cs => if c = p then stripLead ps cs else none

/-! ## The four line matchers

`goroutineMatcher = ^goroutine (\d+) \[([^,]+)(, (\d+) minutes)?\]:$`
`createdMatcher   = ^created by (.+) in goroutine (\d+)$`
`locationMatcher  = ^(.+):(\d+)( \+(0x[0-9a-f]+))?$`
`functionMatcher  = ^(.+)\((.*)\)$`

`.` never matches a newline; `[^,]` matches everything but a comma.
-/

/-- Captures of `goroutineMatcher`: submatch 1 (goroutine id digits),
submatch 2 (status), submatch 4 (minutes digits, `[]` when the optional
group is absent, as `FindStringSubmatch` reports an empty string). -/
structure GoroutineCaps where
  id : List Char
  status : List Char
  minutes : List Char
deriving DecidableEq

/-- Tail `(, (\d+) minutes)?\]:$` of `goroutineMatcher` after the status:
either exactly `]:`, or `, <digits> minutes]:` — `\d+` is greedy and the
character after it must be a space, so the maximal digit run is forced. -/
def grOptTail (r : List Char) : Option (List Char) :=
  if r = [']', ':'] then some []
  else match r with
    | ',' :: ' ' :: rest =>
      if rest.takeWhile isDigitCh = [] then none
      else if rest.dropWhile isDigitCh = (" minutes]:").data then
        some (rest.takeWhile isDigitCh)
      else none
    | _ => none

/-- Stop position for the status `([^,]+)`: the (reversed) capture so far
must be nonempty and the remainder must satisfy `grOptTail`. -/
def grStop (pRev r : List Char) : Option (List Char × List Char) :=
  if pRev = [] then none
  else match grOptTail r with
    | some d => some (pRev.reverse, d)
    | none => none

/-- Greedy `([^,]+)` followed by `grOptTail`: extend the status with any
non-comma character first (deeper match preferred), fall back to stopping
here, exactly the backtracking order of a greedy plus. -/
def grStatus (pRev r : List Char) : Option (List Char × List Char) :=
  match r with
  | [] => grStop pRev []
  | c :: r' =>
    if c = ',' then grStop pRev r
    else match grStatus (c :: pRev) r' with
      | some res => some res
      | none => grStop pRev r

/-- `goroutineMatcher`: literal `goroutine `, greedy `(\d+)` (maximal —
the following literal is a space), literal ` [`, then status and tail. -/
def goroutineMatch (l : List Char) : Option GoroutineCaps :=
  match stripLead ("goroutine ").data l with
  | none => none
  | some r =>
    if r.takeWhile isDigitCh = [] then none
    else match stripLead (" [").data (r.dropWhile isDigitCh) with
      | none => none
      | some t =>
        match grStatus [] t with
        | some (s, m) => some ⟨r.takeWhile isDigitCh, s, m⟩
        | none => none

/-- Stop position for `createdMatcher`'s greedy `(.+)`: the remainder must
be the literal ` in goroutine ` followed by a nonempty all-digit run
reaching the end (`(\d+)$` — a shorter greedy run would leave a digit
where the anchor sits, so the full remainder is forced). -/
def cmStop (pRev r : List Char) : Option (List Char) :=
  if pRev = [] then none
  else match stripLead (" in goroutine ").data r with
    | some d => if d ≠ [] && d.all isDigitCh then some pRev.reverse else none
    | none => none

/-- Greedy `(.+)` of `createdMatcher`: a newline can never be consumed;
otherwise prefer the longer capture, falling back to stopping here. -/
def cmTail (pRev r : List Char) : Option (List Char) :=
  match r with
  | [] => cmStop pRev []
  | c :: r' =>
    if c = '\n' then cmStop pRev r
    else match cmTail (c :: pRev) r' with
      | some res => some res
      | none => cmStop pRev r

/-- `createdMatcher`; the program only uses submatch 1 (the creator). -/
def createdMatch (l : List Char) : Option (List Char) :=
  match stripLead ("created by ").data l with
  | some r => cmTail [] r
  | none => none

/-- Captures of `locationMatcher`: submatch 1 (path), submatch 2 (line
digits), submatch 4 (offset including its `0x` lead, `[]` when absent). -/
structure LocCaps where
  path : List Char
  linedigits : List Char
  offdigits : List Char
deriving DecidableEq

/-- Tail `(\d+)( \+(0x[0-9a-f]+))?$` of `locationMatcher` after the
colon: the greedy `\d+` takes the maximal digit run (a shorter one would
leave a digit where a space or the anchor must sit), then the optional
` +0x<hex>` must fill the remainder exactly or be absent. -/
def locTail (r : List Char) : Option (List Char × List Char) :=
  if r.takeWhile isDigitCh = [] then none
  else
    match r.dropWhile isDigitCh with
    | [] => some (r.takeWhile isDigitCh, [])
    | ' ' :: '+' :: '0' :: 'x' :: h =>
      if h ≠ [] && h.all isLowerHexCh then
        some (r.takeWhile isDigitCh, '0' :: 'x' :: h)
      else none
    | _ => none

/-- Stop position for the path `(.+)`: the (reversed) capture so far must
be nonempty and the remainder must be the literal colon then `locTail`. -/
def locStop (pRev r : List Char) : Option LocCaps :=
  if pRev = [] then none
  else match r with
    | ':' :: rest =>
      match locTail rest with
      | some (d, o) => some ⟨pRev.reverse, d, o⟩
      | none => none
    | _ => none

/-- Greedy `(.+)` of `locationMatcher` (the path, which may itself
contain colons): prefer the longer capture; at a stop the remainder must
begin with the literal colon and satisfy `locTail`. -/
def locAux (pRev r : List Char) : Option LocCaps :=
  match r with
  | [] => locStop pRev []
  | c :: r' =>
    if c = '\n' then locStop pRev r
    else match locAux (c :: pRev) r' with
      | some res => some res
      | none => locStop pRev r

/-- `locationMatcher`. -/
def locationMatch (l : List Char) : Option LocCaps :=
  locAux [] l

/-- Stop position for `functionMatcher`'s greedy `(.+)`: the remainder
must be `(`, then `(.*)` and a final `)` at the very end, so the argument
capture is everything strictly between, and may not contain a newline. -/
def fnStop (pRev r : List Char) : Option (List Char × List Char) :=
  if pRev = [] then none
  else match r with
    | '(' :: rest =>
      match rest.reverse with
      | ')' :: aRev =>
        if aRev.all (· ≠ '\n') then some (pRev.reverse, aRev.reverse) else none
      | _ => none
    | _ => none

/-- Greedy `(.+)` of `functionMatcher` (the function name, which may
itself contain parentheses): prefer the longer capture. -/
def fnAux (pRev r : List Char) : Option (List Char × List Char) :=
  match r with
  | [] => fnStop pRev []
  | c :: r' =>
    if c = '\n' then fnStop pRev r
    else match fnAux (c :: pRev) r' with
      | some res => some res
      | none => fnStop pRev r

/-- `functionMatcher`: submatch 1 (function name), submatch 2 (args). -/
def functionMatch (l : List Char) : Option (List Char × List Char) :=
  fnAux [] l

/-! ## parseStack -/

/-- `frame` of src/main.go (`line` is a Go `int`, `offset` a `uintptr`). -/
structure Frame where
  fn : List Char
  args : List Char
  path : List Char
  line : Int
  offset : Nat
deriving DecidableEq

/-- `parsedStack` of src/main.go. -/
structure ParsedStack where
  goroutine : Int
  status : List Char
  waiting : Int
  frames : List Frame
  created : Frame
  key : List Char
deriving DecidableEq

/-- The `strings.Builder` loop that computes `ps.key`: the status, a
newline, then every frame's function name each followed by a newline. -/
def keyOf (status : List Char) (fns : List (List Char)) : List Char :=
  status ++ '\n' :: fns.foldr (fun f acc => f ++ '\n' :: acc) []

/-- The interior loop `for i := 1; i < len(lines)-2; i += 2` of
`parseStack`, phrased over the suffix `lines[i:]`: the guard
`i < len(lines)-2` holds exactly when the suffix still has more than two
lines, `lines[i]` (which must match `functionMatcher`) is its head and
`lines[i+1]` (which must match `locationMatcher`, numeric captures
included) the line after it, and `i += 2` drops two lines.  When the
interior region is odd the final iteration reads `lines[len(lines)-2]`,
the created-by line, as its location line. -/
def parseFrames : List (List Char) → Option (List Frame)
  | l₁ :: l₂ :: l₃ :: rest =>
    (match functionMatch l₁ with
    | none => none
    | some (fn, args) =>
      match locationMatch l₂ with
      | none => none
      | some lc =>
        match digits lc.linedigits, digits lc.offdigits with
        | some ln, some off =>
          match parseFrames (l₃ :: rest) with
          | none => none
          | some fs => some (⟨fn, args, lc.path, toInt64 ln, off⟩ :: fs)
        | _, _ => none)
  | _ => some []

/-- `parseStack` of src/main.go.  The Go version latches the first error
in a `parser` value and keeps going with dummy captures; since no later
step can clear a latched error and a successful parse never takes a
latched path, returning `none` at the first failing step yields the same
error presence and the same successful records. -/
def parseStack (lines : List (List Char)) : Option ParsedStack :=
  if lines.length < 3 then none
  else
    match goroutineMatch (lines.getD 0 []) with
    | none => none
    | some m =>
      match digits m.id, digits m.minutes with
      | some gid, some wmin =>
        match
          (if lines.getD (lines.length - 2) [] = ("main.main()").data
           then some ['-']
           else createdMatch (lines.getD (lines.length - 2) [])) with
        | none => none
        | some cfn =>
          match locationMatch (lines.getD (lines.length - 1) []) with
          | none => none
          | some lc =>
            match digits lc.linedigits, digits lc.offdigits with
            | some cln, some coff =>
              match parseFrames (lines.drop 1) with
              | none => none
              | some fs =>
                some { goroutine := toInt64 gid
                       status := m.status
                       waiting := toInt64 wmin
                       frames := fs
                       created := ⟨cfn, [], lc.path, toInt64 cln, coff⟩
                       key := keyOf m.status (fs.map Frame.fn) }
            | _, _ => none
      | _, _ => none

/-! ## The main pipeline -/

/-- The mutable state of `main`'s scan loop: the current block's lines,
the successfully parsed stacks, and the error count. -/
structure MainState where
  lines : List (List Char)
  stks : List ParsedStack
  errors : Nat
deriving DecidableEq

/-- `addLines` of src/main.go: parse the buffered block, appending the
record on success and bumping the error count on failure, then reset the
buffer.  It is invoked on every blank line and once at end of input, with
no emptiness check on the buffer. -/
def addLines (st : MainState) : MainState :=
  match parseStack st.lines with
  | some ps => ⟨[], st.stks ++ [ps], st.errors⟩
  | none => ⟨[], st.stks, st.errors + 1⟩

/-- The scanner loop of `main`: trim each raw line; a blank line flushes
the buffer through `addLines`, any other line is appended to it. -/
def scanLoop (input : List (List Char)) (st : MainState) : MainState :=
  match input with
  | [] => st
  | raw :: rest =>
    if trimSpace raw = [] then scanLoop rest (addLines st)
    else scanLoop rest ⟨st.lines ++ [trimSpace raw], st.stks, st.errors⟩

/-- The whole scan phase of `main`: run the loop from the empty state and
flush once more at end of input. -/
def runScan (input : List (List Char)) : MainState :=
  addLines (scanLoop input ⟨[], [], 0⟩)

/-- `sort.Slice(stacks, ...)` with `less i j = stacks[i].key < stacks[j].key`:
some permutation of `stacks` that is sorted by key.  Go's unstable sort
is modelled by insertion sort; every group-level quantity the program
derives (run lengths, min/max waiting, status sets) depends only on which
records share a key, so any sorted permutation yields the same groups up
to the order of equal-key records inside a run. -/
def sortStacks (stks : List ParsedStack) : List ParsedStack :=
  List.insertionSort (fun a b : ParsedStack => !lexLt b.key a.key) stks

/-- The accumulating form of `group`'s loop: `k` is the key of the run's
first record (`ps[prev].key`), `curRev` the run collected so far in
reverse, `count` the Go `count` variable. -/
def groupAux (k : List Char) (curRev : List ParsedStack) (count : Nat) :
    List ParsedStack → List (Nat × List ParsedStack)
  | [] => [(count, curRev.reverse)]
  | q :: rest =>
    if q.key = k then groupAux k (q :: curRev) (count + 1) rest
    else (count, curRev.reverse) :: groupAux q.key [q] 1 rest

/-- `group` of src/main.go, returning the list of `(n, run)` arguments it
passes to its callback, in callback order. -/
def group : List ParsedStack → List (Nat × List ParsedStack)
  | [] => []
  | p :: rest => groupAux p.key [p] 1 rest

/-- `minMax` of src/main.go: fold `min`/`max` of `waiting` starting from
the first record (total here, with `(0, 0)` on the empty list the Go
version would panic on; `group` never produces an empty run). -/
def minMax (ps : List ParsedStack) : Int × Int :=
  match ps with
  | [] => (0, 0)
  | p :: rest =>
    rest.foldl (fun mm q => (min mm.1 q.waiting, max mm.2 q.waiting))
      (p.waiting, p.waiting)

/-- `sortedStatuses` of src/main.go: collect the distinct statuses
(`map[string]struct` dedup; Go's random map order is immaterial because
the result is sorted) and sort them with `sort.Strings`. -/
def sortedStatuses (ps : List ParsedStack) : List (List Char) :=
  List.insertionSort (fun a b : List Char => !lexLt b a)
    (ps.map ParsedStack.status).dedup

/-- The filter at the head of `main`'s group callback:
`if n < *filterCount { return }` — the groups actually printed. -/
def emitted (gs : List (Nat × List ParsedStack)) (minCount : Int) :
    List (Nat × List ParsedStack) :=
  gs.filter (fun g => !((g.1 : Int) < minCount))

/-! ## Per-line acceptance predicates (the grammar checks plus the numeric
parses each line feeds into `parser.digits`) -/

/-- A line passes as a header: it matches `goroutineMatcher` and both its
numeric captures (goroutine id, optional minutes) parse. -/
def headerOK (l : List Char) : Bool :=
  match goroutineMatch l with
  | some m => (digits m.id).isSome && (digits m.minutes).isSome
  | none => false

/-- A line passes as the created-by line: the literal `main.main()`
sentinel or a `createdMatcher` match (its goroutine capture is never
handed to `digits` by the program). -/
def createdOK (l : List Char) : Bool :=
  l = ("main.main()").data || (createdMatch l).isSome

/-- A line passes as a location line: it matches `locationMatcher` and
both its numeric captures (line, optional offset) parse. -/
def locationOK (l : List Char) : Bool :=
  match locationMatch l with
  | some lc => (digits lc.linedigits).isSome && (digits lc.offdigits).isSome
  | none => false

/-- A line passes as a function-call line (`functionMatcher`; its
captures are strings, nothing numeric to parse). -/
def callOK (l : List Char) : Bool :=
  (functionMatch l).isSome

/-- Sample block used to instantiate the parse characterization on a
concrete input (header with a minutes clause, one frame pair). -/
def c6blk : List (List Char) :=
  [("goroutine 8 [chan send, 12 minutes]:").data,
   ("pkg.run(0x2, 0x3)").data,
   ("/srv/app/w.go:44 +0x1b").data,
   ("created by pkg.start in goroutine 1").data,
   ("/srv/app/w.go:30 +0x9a").data]

/-- Sample records used to instantiate the aggregation properties on a
concrete input (two distinct keys, distinct waiting times). -/
def c5sts : List ParsedStack :=
  [⟨1, ['b'], 4, [], ⟨[], [], [], 0, 0⟩, ['k', '2']⟩,
   ⟨2, ['a'], 9, [], ⟨[], [], [], 0, 0⟩, ['k', '1']⟩,
   ⟨3, ['a'], 2, [], ⟨[], [], [], 0, 0⟩, ['k', '1']⟩]

/-! ## Spec-side definitions -/

/-- Positional-notation value of a digit string in base `b` (the
mathematical reading, defined independently of `puLoop`). -/
def baseVal (b : Nat) (ds : List Char) : Nat :=
  ds.foldl (fun a c => b * a + digitValCh c) 0

/-- Spec-side block count: a block is a maximal run of lines that are
non-blank after trimming ("logically segmented into blocks by one-or-more
blank lines ... trailing content ... is treated as one final block"). -/
def specBlockCount (input : List (List Char)) : Nat :=
  (input.foldl
    (fun st raw =>
      if trimSpace raw = [] then (false, st.2)
      else if st.1 then (true, st.2) else (true, st.2 + 1))
    (false, 0)).2

/-! ## Basic lemmas about `puLoop` and `digits` -/

theorem puLoop_ge (b acc : Nat) (ds : List Char) (hb : 1 ≤ b) :
    acc ≤ ds.foldl (fun a c => b * a + digitValCh c) acc := by
  induction ds generalizing acc with
  | nil => simp
  | cons c cs ih =>
    have h1 : acc ≤ b * acc + digitValCh c := by nlinarith
    exact h1.trans (ih (b * acc + digitValCh c))

theorem puLoop_spec (ds : List Char) : ∀ (b acc : Nat), 1 ≤ b → acc < 2 ^ 64 →
    (∀ c ∈ ds, digitValCh c < b) →
    puLoop b acc ds =
      if ds.foldl (fun a c => b * a + digitValCh c) acc < 2 ^ 64
      then (ds.foldl (fun a c => b * a + digitValCh c) acc, true)
      else (2 ^ 64 - 1, false) := by
  induction ds with
  | nil =>
    intro b acc _ hacc _
    simp only [puLoop, List.foldl_nil]
    rw [if_pos hacc]
  | cons c cs ih =>
    intro b acc hb hacc hv
    have hc : digitValCh c < b := hv c (by simp)
    simp only [puLoop, List.foldl_cons]
    rw [if_pos hc]
    by_cases hov : b * acc + digitValCh c < 2 ^ 64
    · rw [if_pos hov]
      exact ih b (b * acc + digitValCh c) hb hov (fun x hx => hv x (by simp [hx]))
    · rw [if_neg hov]
      have hmono := puLoop_ge b (b * acc + digitValCh c) cs hb
      rw [if_neg (by omega)]

theorem puLoop_invalid (ds : List Char) : ∀ (b acc : Nat),
    (∃ c ∈ ds, b ≤ digitValCh c) → (puLoop b acc ds).2 = false := by
  induction ds with
  | nil => intro b acc h; simp at h
  | cons c cs ih =>
    intro b acc h
    by_cases hc : digitValCh c < b
    · simp only [puLoop, hc, if_true]
      obtain ⟨x, hx, hxb⟩ := h
      rcases List.mem_cons.mp hx with hx | hx
      · subst hx; omega
      · by_cases hov : b * acc + digitValCh c < 2 ^ 64
        · rw [if_pos hov]; exact ih b _ ⟨x, hx, hxb⟩
        · rw [if_neg hov]
    · simp [puLoop, hc]

theorem digitValCh_lt_10 (c : Char) (h : isDigitCh c = true) : digitValCh c < 10 := by
  have hb : ('0' ≤ c && c ≤ '9') = true := h
  simp only [isDigitCh, Bool.and_eq_true, decide_eq_true_eq] at h
  have h1 : ('0').toNat ≤ c.toNat := h.1
  have h2 : c.toNat ≤ ('9').toNat := h.2
  have e1 : ('0').toNat = 48 := by decide
  have e2 : ('9').toNat = 57 := by decide
  simp only [digitValCh]
  rw [if_pos hb]
  omega

theorem digitValCh_lt_16 (c : Char) (h : isLowerHexCh c = true) : digitValCh c < 16 := by
  simp only [isLowerHexCh, Bool.or_eq_true] at h
  rcases h with h | h
  · exact (digitValCh_lt_10 c h).trans_le (by omega)
  · have hb : ('a' ≤ c && c ≤ 'f') = true := h
    simp only [Bool.and_eq_true, decide_eq_true_eq] at h
    have h1 : ('a').toNat ≤ c.toNat := h.1
    have h2 : c.toNat ≤ ('f').toNat := h.2
    have e1 : ('a').toNat = 97 := by decide
    have e2 : ('f').toNat = 102 := by decide
    have e3 : ('0').toNat = 48 := by decide
    have e4 : ('9').toNat = 57 := by decide
    have e5 : ('z').toNat = 122 := by decide
    have hnd : ¬ ('0' ≤ c && c ≤ '9') = true := by
      simp only [Bool.and_eq_true, decide_eq_true_eq, not_and]
      intro _ hle
      have hle2 : c.toNat ≤ ('9').toNat := hle
      omega
    have hyes : ('a' ≤ c && c ≤ 'z') = true := by
      simp only [Bool.and_eq_true, decide_eq_true_eq]
      refine ⟨h.1, ?_⟩
      show c.toNat ≤ ('z').toNat
      omega
    simp only [digitValCh]
    rw [if_neg hnd, if_pos hyes]
    omega

theorem isDigitCh_ne_hexmark (c : Char) (h : isDigitCh c = true) :
    c ≠ 'x' ∧ c ≠ 'X' ∧ c ≠ 'b' ∧ c ≠ 'B' ∧ c ≠ 'o' ∧ c ≠ 'O' := by
  refine ⟨?_, ?_, ?_, ?_, ?_, ?_⟩ <;>
    (intro hc; subst hc; exact absurd h (by decide))

/-- `digits` on a nonempty all-digit capture (what `\d+` produces): Go's
base-0 parse reads a leading zero as octal — `010` is 8, `08` is a
syntax error — and reads a plain digit string as decimal, failing only
past `2^64 - 1`. -/
theorem digitValCh_zero : digitValCh '0' = 0 := by decide

theorem puLoop_spec0 (ds : List Char) (b : Nat) (hb : 1 ≤ b)
    (hv : ∀ c ∈ ds, digitValCh c < b) :
    puLoop b 0 ds =
      if baseVal b ds < 2 ^ 64 then (baseVal b ds, true)
      else (2 ^ 64 - 1, false) :=
  puLoop_spec ds b 0 hb (by norm_num) hv

/-- `digits` on a nonempty all-digit capture (what `\d+` produces): Go's
base-0 parse reads a leading zero as octal — `010` is 8, `08` is a
syntax error — and reads a plain digit string as decimal, failing only
past `2^64 - 1`. -/
theorem digits_digit_string (ds : List Char) (hd : ds ≠ [])
    (hda : ∀ c ∈ ds, isDigitCh c = true) :
    digits ds =
      if ds.head? = some '0' ∧ 1 < ds.length then
        (if (∀ c ∈ ds, digitValCh c < 8) ∧ baseVal 8 ds < 2 ^ 64
         then some (baseVal 8 ds) else none)
      else (if baseVal 10 ds < 2 ^ 64 then some (baseVal 10 ds) else none) := by
  match ds, hd with
  | c :: cs, _ =>
    have hdig : digits (c :: cs) =
        match parseUint0 (c :: cs) with
        | (n, true) => some n
        | (_, false) => none := by
      simp [digits]
    by_cases hc0 : c = '0'
    · subst hc0
      match cs, hda with
      | [], _ => decide
      | c2 :: cs2, hda =>
        have hc2 : isDigitCh c2 = true := hda c2 (by simp)
        obtain ⟨hx, hX, hb, hB, ho, hO⟩ := isDigitCh_ne_hexmark c2 hc2
        have hpu : parseUint0 ('0' :: c2 :: cs2) = puLoop 8 0 (c2 :: cs2) := by
          simp [parseUint0, hx, hX, hb, hB, ho, hO]
        rw [if_pos (by simp), hdig, hpu]
        have hbv : baseVal 8 ('0' :: c2 :: cs2) = baseVal 8 (c2 :: cs2) := by
          simp [baseVal, digitValCh_zero]
        rw [hbv]
        by_cases hval : ∀ x ∈ ('0' :: c2 :: cs2 : List Char), digitValCh x < 8
        · rw [puLoop_spec0 (c2 :: cs2) 8 (by norm_num)
            (fun x hx2 => hval x (by simp [hx2]))]
          by_cases hlt : baseVal 8 (c2 :: cs2) < 2 ^ 64
          · rw [if_pos hlt, if_pos (And.intro hval hlt)]
          · rw [if_neg hlt, if_neg (fun hcon => hlt hcon.2)]
        · have hwit : ∃ x ∈ (c2 :: cs2 : List Char), 8 ≤ digitValCh x := by
            push_neg at hval
            obtain ⟨x, hx1, hx2⟩ := hval
            refine ⟨x, ?_, by omega⟩
            rcases List.mem_cons.mp hx1 with h | h
            · subst h; rw [digitValCh_zero] at hx2; omega
            · exact h
          have hfail := puLoop_invalid (c2 :: cs2) 8 0 hwit
          rw [if_neg (fun hcon => hval hcon.1)]
          rcases hp : puLoop 8 0 (c2 :: cs2) with ⟨n2, b2⟩
          rw [hp] at hfail
          simp only at hfail
          subst hfail
          rfl
    · rw [hdig]
      have hpu : parseUint0 (c :: cs) = puLoop 10 0 (c :: cs) := by
        simp only [parseUint0]
        rw [if_neg hc0]
      rw [hpu, puLoop_spec0 (c :: cs) 10 (by norm_num)
        (fun x hx2 => digitValCh_lt_10 x (hda x hx2))]
      have hcond : ¬ ((c :: cs : List Char).head? = some '0'
          ∧ 1 < (c :: cs : List Char).length) := by
        intro hcon
        apply hc0
        simpa using hcon.1
      rw [if_neg hcond]
      by_cases hlt : baseVal 10 (c :: cs) < 2 ^ 64
      · rw [if_pos hlt, if_pos hlt]
      · rw [if_neg hlt, if_neg hlt]

/-- `digits` on an offset capture `0x<hex>` (what `(0x[0-9a-f]+)`
produces): the `0x` lead makes Go's base-0 parse hexadecimal. -/
theorem digits_hex_capture (hs : List Char) (hh : hs ≠ [])
    (hha : ∀ c ∈ hs, isLowerHexCh c = true) :
    digits ('0' :: 'x' :: hs) =
      if baseVal 16 hs < 2 ^ 64 then some (baseVal 16 hs) else none := by
  have hdig : digits ('0' :: 'x' :: hs) =
      match parseUint0 ('0' :: 'x' :: hs) with
      | (n, true) => some n
      | (_, false) => none := by
    simp [digits]
  have hpu : parseUint0 ('0' :: 'x' :: hs) = puLoop 16 0 hs := by
    simp [parseUint0, hh]
  rw [hdig, hpu, puLoop_spec0 hs 16 (by norm_num)
    (fun x hx => digitValCh_lt_16 x (hha x hx))]
  by_cases hlt : baseVal 16 hs < 2 ^ 64
  · rw [if_pos hlt, if_pos hlt]
  · rw [if_neg hlt, if_neg hlt]

/-! ## Claim C1 (numeric bases) — corrected -/

/-- C1 counterexample: the claim says ids/lines/minutes are parsed as
decimal, so `010` would denote 10 and `08` would parse successfully.  On
the code, `digits` maps `010` to octal 8, and a block whose header
matches the grammar with minutes capture `08` fails to parse. -/
theorem C1_counterexample :
    digits ['0', '1', '0'] = some 8 ∧
    (goroutineMatch (("goroutine 1 [x, 08 minutes]:").data)).isSome = true ∧
    parseStack [("goroutine 1 [x, 08 minutes]:").data,
                ("created by a in goroutine 1").data,
                ("b.go:1").data] = none := by
  refine ⟨by decide, by decide, by decide⟩

/-- C1 (amended): every numeric capture is handed to Go's base-detecting
`strconv.ParseUint(s, 0, 64)`.  A digit-string capture (`\d+`: goroutine
ids, source lines, waiting minutes) with a leading zero and more than one
digit is read as octal — it fails if any digit is 8 or 9 — and is read as
decimal otherwise; the offset capture keeps its `0x` lead and is read as
hexadecimal; values of `2^64` or more fail. -/
theorem C1_theorem (ds hs : List Char) (hd : ds ≠ [])
    (hda : ∀ c ∈ ds, isDigitCh c = true)
    (hh : hs ≠ []) (hha : ∀ c ∈ hs, isLowerHexCh c = true) :
    (digits ds =
      if ds.head? = some '0' ∧ 1 < ds.length then
        (if (∀ c ∈ ds, digitValCh c < 8) ∧ baseVal 8 ds < 2 ^ 64
         then some (baseVal 8 ds) else none)
      else (if baseVal 10 ds < 2 ^ 64 then some (baseVal 10 ds) else none)) ∧
    digits ('0' :: 'x' :: hs) =
      (if baseVal 16 hs < 2 ^ 64 then some (baseVal 16 hs) else none) :=
  ⟨digits_digit_string ds hd hda, digits_hex_capture hs hh hha⟩

/-- Witness for C1 at the captures `010` and `1f`. -/
theorem C1_witness :
    (digits ['0', '1', '0'] =
      if (['0', '1', '0'] : List Char).head? = some '0'
          ∧ 1 < (['0', '1', '0'] : List Char).length then
        (if (∀ c ∈ (['0', '1', '0'] : List Char), digitValCh c < 8)
            ∧ baseVal 8 ['0', '1', '0'] < 2 ^ 64
         then some (baseVal 8 ['0', '1', '0']) else none)
      else (if baseVal 10 ['0', '1', '0'] < 2 ^ 64
            then some (baseVal 10 ['0', '1', '0']) else none)) ∧
    digits ('0' :: 'x' :: ['1', 'f']) =
      (if baseVal 16 ['1', 'f'] < 2 ^ 64 then some (baseVal 16 ['1', 'f']) else none) :=
  C1_theorem ['0', '1', '0'] ['1', 'f'] (by decide) (by decide) (by decide) (by decide)

/-! ## Claim C7 (emission filter) — confirmed -/

/-- C7: the emitter prints exactly the groups with `count ≥ minCount`,
in order; with `minCount = 0` every group is emitted; with `minCount`
above every group's count none is. -/
theorem C7_theorem (gs : List (Nat × List ParsedStack)) (minCount : Int) :
    emitted gs minCount = gs.filter (fun g => minCount ≤ (g.1 : Int)) ∧
    emitted gs 0 = gs ∧
    ((∀ g ∈ gs, (g.1 : Int) < minCount) → emitted gs minCount = []) := by
  refine ⟨?_, ?_, ?_⟩
  · unfold emitted
    apply List.filter_congr
    intro g _
    by_cases h : (g.1 : Int) < minCount
    · simp [h, not_le.mpr h]
    · simp [h, not_lt.mp h]
  · unfold emitted
    apply List.filter_eq_self.mpr
    intro g _
    simp [not_lt]
  · intro h
    unfold emitted
    apply List.filter_eq_nil_iff.mpr
    intro g hg
    simp [h g hg]

/-- Witness for C7 at a two-group list and threshold 2. -/
theorem C7_witness :
    (emitted [(2, []), (1, [])] 2 =
      ([(2, []), (1, [])] : List (Nat × List ParsedStack)).filter
        (fun g => (2 : Int) ≤ (g.1 : Int))) ∧
    emitted [(2, []), (1, [])] 0 = [(2, []), (1, [])] ∧
    ((∀ g ∈ ([(2, []), (1, [])] : List (Nat × List ParsedStack)),
        (g.1 : Int) < 2) → emitted [(2, []), (1, [])] 2 = []) :=
  C7_theorem [(2, []), (1, [])] 2

/-! ## Claim C8 (determinism) — confirmed -/

/-- C8: `parseStack` is a pure function of its argument — equal inputs
give equal results, records and keys alike.  (Purity holds by the shallow
embedding: the Go code reads nothing beyond its argument and the
package-level immutable matchers, and writes nothing.) -/
theorem C8_theorem (l₁ l₂ : List (List Char)) (h : l₁ = l₂) :
    parseStack l₁ = parseStack l₂ ∧
    ∀ ps₁ ps₂, parseStack l₁ = some ps₁ → parseStack l₂ = some ps₂ →
      ps₁ = ps₂ ∧ ps₁.key = ps₂.key := by
  subst h
  refine ⟨rfl, ?_⟩
  intro ps₁ ps₂ h1 h2
  rw [h1] at h2
  have h3 := Option.some.inj h2
  subst h3
  exact ⟨rfl, rfl⟩

/-- Witness for C8 at a concrete block. -/
theorem C8_witness :
    (parseStack [("goroutine 7 [select]:").data, ("main.main()").data,
                 ("a.go:3").data] =
     parseStack [("goroutine 7 [select]:").data, ("main.main()").data,
                 ("a.go:3").data]) ∧
    ∀ ps₁ ps₂,
      parseStack [("goroutine 7 [select]:").data, ("main.main()").data,
                  ("a.go:3").data] = some ps₁ →
      parseStack [("goroutine 7 [select]:").data, ("main.main()").data,
                  ("a.go:3").data] = some ps₂ →
      ps₁ = ps₂ ∧ ps₁.key = ps₂.key :=
  C8_theorem _ _ rfl

/-! ## Claim C9 (group callback safety) — confirmed -/

theorem groupAux_flatten (rest : List ParsedStack) :
    ∀ (k : List Char) (curRev : List ParsedStack) (count : Nat),
    ((groupAux k curRev count rest).map Prod.snd).flatten = curRev.reverse ++ rest := by
  induction rest with
  | nil => intro k curRev count; simp [groupAux]
  | cons q qs ih =>
    intro k curRev count
    by_cases hq : q.key = k
    · simp only [groupAux, if_pos hq]
      rw [ih]
      simp
    · simp only [groupAux, if_neg hq, List.map_cons, List.flatten_cons]
      rw [ih]
      simp

theorem groupAux_counts (rest : List ParsedStack) :
    ∀ (k : List Char) (curRev : List ParsedStack) (count : Nat),
    count = curRev.length → curRev ≠ [] →
    ∀ g ∈ groupAux k curRev count rest, g.2 ≠ [] ∧ g.1 = g.2.length := by
  induction rest with
  | nil =>
    intro k curRev count hc hne g hg
    simp only [groupAux, List.mem_singleton] at hg
    subst hg
    refine ⟨by simpa using hne, by simpa using hc⟩
  | cons q qs ih =>
    intro k curRev count hc hne g hg
    by_cases hq : q.key = k
    · simp only [groupAux, if_pos hq] at hg
      exact ih k (q :: curRev) (count + 1) (by simp [hc]) (by simp) g hg
    · simp only [groupAux, if_neg hq, List.mem_cons] at hg
      rcases hg with hg | hg
      · subst hg
        refine ⟨by simpa using hne, by simpa using hc⟩
      · exact ih q.key [q] 1 (by simp) (by simp) g hg

/-- C9: `group` hands its callback only non-empty runs, the reported `n`
is always the run's length (hence at least 1), and the runs concatenate
back to the whole input sequence — so `minMax` and `sortedStatuses` are
never applied to an empty slice and every group has `count ≥ 1`. -/
theorem C9_theorem (ps : List ParsedStack) :
    (∀ g ∈ group ps, g.2 ≠ [] ∧ g.1 = g.2.length ∧ 1 ≤ g.1) ∧
    ((group ps).map Prod.snd).flatten = ps := by
  constructor
  · intro g hg
    match ps, hg with
    | [], hg => simp [group] at hg
    | p :: rest, hg =>
      have h := groupAux_counts rest p.key [p] 1 (by simp) (by simp) g hg
      refine ⟨h.1, h.2, ?_⟩
      rw [h.2]
      exact List.length_pos.mpr h.1
  · match ps with
    | [] => rfl
    | p :: rest =>
      show ((groupAux p.key [p] 1 rest).map Prod.snd).flatten = p :: rest
      rw [groupAux_flatten]
      rfl

/-- Witness for C9 at a concrete two-record list. -/
theorem C9_witness :
    (∀ g ∈ group [⟨1, ['a'], 0, [], ⟨[], [], [], 0, 0⟩, ['k']⟩,
                  ⟨2, ['a'], 3, [], ⟨[], [], [], 0, 0⟩, ['m']⟩],
        g.2 ≠ [] ∧ g.1 = g.2.length ∧ 1 ≤ g.1) ∧
    ((group [⟨1, ['a'], 0, [], ⟨[], [], [], 0, 0⟩, ['k']⟩,
             ⟨2, ['a'], 3, [], ⟨[], [], [], 0, 0⟩, ['m']⟩]).map Prod.snd).flatten =
      [⟨1, ['a'], 0, [], ⟨[], [], [], 0, 0⟩, ['k']⟩,
       ⟨2, ['a'], 3, [], ⟨[], [], [], 0, 0⟩, ['m']⟩] :=
  C9_theorem [⟨1, ['a'], 0, [], ⟨[], [], [], 0, 0⟩, ['k']⟩,
              ⟨2, ['a'], 3, [], ⟨[], [], [], 0, 0⟩, ['m']⟩]

/-! ## Soundness of the matchers -/

theorem stripLead_sound (p : List Char) : ∀ l r, stripLead p l = some r → l = p ++ r := by
  induction p with
  | nil =>
    intro l r h
    simp only [stripLead, Option.some.injEq] at h
    simp [h]
  | cons x xs ih =>
    intro l r h
    match l with
    | [] => simp [stripLead] at h
    | c :: cs =>
      simp only [stripLead] at h
      split at h
      · next hcx =>
        subst hcx
        rw [List.cons_append, ← ih cs r h]
      · exact absurd h (by simp)

theorem grStop_inv (pRev r s m : List Char) (h : grStop pRev r = some (s, m)) :
    s = pRev.reverse := by
  unfold grStop at h
  split at h
  · exact absurd h (by simp)
  · split at h
    · simp only [Option.some.injEq, Prod.mk.injEq] at h
      exact h.1.symm
    · exact absurd h (by simp)

theorem grStatus_mem (r : List Char) : ∀ pRev s m, grStatus pRev r = some (s, m) →
    ∀ c ∈ s, c ∈ pRev ∨ c ∈ r := by
  induction r with
  | nil =>
    intro pRev s m h c hc
    rw [grStatus, grStop_inv pRev [] s m h] at *
    exact Or.inl (List.mem_reverse.mp hc)
  | cons c0 r' ih =>
    intro pRev s m h c hc
    simp only [grStatus] at h
    split at h
    · rw [grStop_inv pRev (c0 :: r') s m h] at hc
      exact Or.inl (List.mem_reverse.mp hc)
    · split at h
      · next res hres =>
        injection h with h2
        subst h2
        rcases ih (c0 :: pRev) s m hres c hc with hmem | hmem
        · rcases List.mem_cons.mp hmem with h3 | h3
          · exact Or.inr (h3 ▸ List.mem_cons_self c0 r')
          · exact Or.inl h3
        · exact Or.inr (List.mem_cons_of_mem c0 hmem)
      · rw [grStop_inv pRev (c0 :: r') s m h] at hc
        exact Or.inl (List.mem_reverse.mp hc)

theorem grStatus_nocomma (r : List Char) : ∀ pRev s m, grStatus pRev r = some (s, m) →
    (∀ c ∈ pRev, c ≠ ',') → ∀ c ∈ s, c ≠ ',' := by
  induction r with
  | nil =>
    intro pRev s m h hp c hc
    rw [grStatus, grStop_inv pRev [] s m h] at *
    exact hp c (List.mem_reverse.mp hc)
  | cons c0 r' ih =>
    intro pRev s m h hp c hc
    simp only [grStatus] at h
    split at h
    · rw [grStop_inv pRev (c0 :: r') s m h] at hc
      exact hp c (List.mem_reverse.mp hc)
    · next hcomma =>
      split at h
      · next res hres =>
        injection h with h2
        subst h2
        refine ih (c0 :: pRev) s m hres ?_ c hc
        intro x hx
        rcases List.mem_cons.mp hx with h3 | h3
        · subst h3; exact hcomma
        · exact hp x h3
      · rw [grStop_inv pRev (c0 :: r') s m h] at hc
        exact hp c (List.mem_reverse.mp hc)

/-- Every character of the status capture comes from the matched line and
is not a comma (the `[^,]+` class). -/
theorem goroutineMatch_status (l : List Char) (caps : GoroutineCaps)
    (h : goroutineMatch l = some caps) :
    (∀ c ∈ caps.status, c ∈ l) ∧ (∀ c ∈ caps.status, c ≠ ',') := by
  unfold goroutineMatch at h
  split at h
  · exact absurd h (by simp)
  · next r hr =>
    split at h
    · exact absurd h (by simp)
    · split at h
      · exact absurd h (by simp)
      · next t ht =>
        split at h
        · next s m hsm =>
          injection h with h2
          subst h2
          constructor
          · intro c hc
            rcases grStatus_mem t [] s m hsm c hc with hmem | hmem
            · exact absurd hmem (by simp)
            · have h1 : l = ("goroutine ").data ++ r := stripLead_sound _ _ _ hr
              have h2 : r.dropWhile isDigitCh = (" [").data ++ t := stripLead_sound _ _ _ ht
              have h3 : c ∈ r.dropWhile isDigitCh := by
                rw [h2]
                exact List.mem_append_right _ hmem
              have h4 : c ∈ r := (List.dropWhile_sublist isDigitCh).mem h3
              rw [h1]
              exact List.mem_append_right _ h4
          · exact grStatus_nocomma t [] s m hsm (by simp)
        · exact absurd h (by simp)

theorem fnStop_inv (pRev r : List Char) (f a : List Char)
    (h : fnStop pRev r = some (f, a)) : f = pRev.reverse := by
  unfold fnStop at h
  split at h
  · exact absurd h (by simp)
  · split at h
    · split at h
      · split at h
        · simp only [Option.some.injEq, Prod.mk.injEq] at h
          exact h.1.symm
        · exact absurd h (by simp)
      · exact absurd h (by simp)
    · exact absurd h (by simp)

theorem fnAux_fn (r : List Char) : ∀ pRev f a, fnAux pRev r = some (f, a) →
    (∀ c ∈ pRev, c ≠ '\n') → ∀ c ∈ f, c ≠ '\n' := by
  induction r with
  | nil =>
    intro pRev f a h hp c hc
    rw [fnAux, fnStop_inv pRev [] f a h] at *
    exact hp c (List.mem_reverse.mp hc)
  | cons c0 r' ih =>
    intro pRev f a h hp c hc
    simp only [fnAux] at h
    split at h
    · rw [fnStop_inv pRev (c0 :: r') f a h] at hc
      exact hp c (List.mem_reverse.mp hc)
    · next hnl =>
      split at h
      · next res hres =>
        injection h with h2
        subst h2
        refine ih (c0 :: pRev) f a hres ?_ c hc
        intro x hx
        rcases List.mem_cons.mp hx with h3 | h3
        · subst h3; exact hnl
        · exact hp x h3
      · rw [fnStop_inv pRev (c0 :: r') f a h] at hc
        exact hp c (List.mem_reverse.mp hc)

/-- The function-name capture of `functionMatcher` never contains a
newline (`.` does not match one). -/
theorem functionMatch_fn_nonl (l : List Char) (f a : List Char)
    (h : functionMatch l = some (f, a)) : '\n' ∉ f := by
  intro hc
  exact fnAux_fn l [] f a h (by simp) '\n' hc rfl

/-- Every frame produced by the interior loop has a newline-free function
name. -/
theorem parseFrames_fn_nonl (L : List (List Char)) :
    ∀ fs, parseFrames L = some fs → ∀ fr ∈ fs, '\n' ∉ fr.fn := by
  induction L using parseFrames.induct with
  | case1 l₁ l₂ l₃ rest h1 =>
    intro fs h
    simp [parseFrames, h1] at h
  | case2 l₁ l₂ l₃ rest fn args h1 h2 =>
    intro fs h
    simp [parseFrames, h1, h2] at h
  | case3 l₁ l₂ l₃ rest fn args h1 lc h2 ln off hoff hln h3 ih =>
    intro fs h
    simp [parseFrames, h1, h2, hln, hoff, h3] at h
  | case4 l₁ l₂ l₃ rest fn args h1 lc h2 ln off hoff hln fs2 h3 ih =>
    intro fs h
    simp only [parseFrames, h1, h2, hln, hoff, h3, Option.some.injEq] at h
    intro fr hfr
    rw [← h] at hfr
    rcases List.mem_cons.mp hfr with h4 | h4
    · subst h4
      exact functionMatch_fn_nonl l₁ fn args h1
    · exact ih fs2 h3 fr h4
  | case5 l₁ l₂ l₃ rest fn args h1 lc h2 hfalse =>
    intro fs h
    rcases hdl : digits lc.linedigits with _ | ln
    · simp [parseFrames, h1, h2, hdl] at h
    · rcases hdo : digits lc.offdigits with _ | off
      · simp [parseFrames, h1, h2, hdl, hdo] at h
      · exact absurd (hfalse ln off hdl hdo) (by simp)
  | case6 t ht =>
    intro fs h
    match t, ht with
    | [], _ =>
      have he : parseFrames ([] : List (List Char)) = some [] := rfl
      rw [he] at h
      intro fr hfr
      rw [← Option.some.inj h] at hfr
      simp at hfr
    | [a], _ =>
      have he : parseFrames [a] = some [] := rfl
      rw [he] at h
      intro fr hfr
      rw [← Option.some.inj h] at hfr
      simp at hfr
    | [a, b], _ =>
      have he : parseFrames [a, b] = some [] := rfl
      rw [he] at h
      intro fr hfr
      rw [← Option.some.inj h] at hfr
      simp at hfr
    | a :: b :: c :: rest, ht => exact (ht a b c rest rfl).elim

/-- Inversion of a successful `parseStack`: where the status, frames, key
and waiting time of the record come from. -/
theorem parseStack_some_parts (lines : List (List Char)) (ps : ParsedStack)
    (h : parseStack lines = some ps) :
    3 ≤ lines.length ∧
    ∃ m fs, goroutineMatch (lines.getD 0 []) = some m ∧
      parseFrames (lines.drop 1) = some fs ∧
      (lines.getD (lines.length - 2) [] = ("main.main()").data ∨
        ∃ cfn, createdMatch (lines.getD (lines.length - 2) []) = some cfn) ∧
      ps.status = m.status ∧ ps.frames = fs ∧
      ps.key = keyOf m.status (fs.map Frame.fn) ∧
      ∃ w, digits m.minutes = some w ∧ ps.waiting = toInt64 w := by
  unfold parseStack at h
  split at h
  · exact absurd h (by simp)
  · next hlen =>
    refine ⟨by omega, ?_⟩
    split at h
    · exact absurd h (by simp)
    · next m hm =>
      split at h
      · next gid wmin hgid hwmin =>
        split at h
        · exact absurd h (by simp)
        · next cfn hcfn =>
          split at h
          · exact absurd h (by simp)
          · next lc hlc =>
            split at h
            · next cln coff hcln hcoff =>
              split at h
              · exact absurd h (by simp)
              · next fs hfs =>
                have h2 := Option.some.inj h
                subst h2
                refine ⟨m, fs, hm, hfs, ?_, rfl, rfl, rfl, wmin, hwmin, rfl⟩
                by_cases hmm : lines.getD (lines.length - 2) [] = ("main.main()").data
                · exact Or.inl hmm
                · rw [if_neg hmm] at hcfn
                  exact Or.inr ⟨cfn, hcfn⟩
            · exact absurd h (by simp)
      · exact absurd h (by simp)

/-! ## Injectivity of the grouping key -/

theorem splitNl (s₁ : List Char) : ∀ (s₂ t₁ t₂ : List Char), '\n' ∉ s₁ → '\n' ∉ s₂ →
    s₁ ++ '\n' :: t₁ = s₂ ++ '\n' :: t₂ → s₁ = s₂ ∧ t₁ = t₂ := by
  induction s₁ with
  | nil =>
    intro s₂ t₁ t₂ h1 h2 he
    match s₂, he with
    | [], he =>
      simp only [List.nil_append, List.cons.injEq] at he
      exact ⟨rfl, he.2⟩
    | c :: cs, he =>
      simp only [List.nil_append, List.cons_append, List.cons.injEq] at he
      exact absurd (by rw [he.1]; exact List.mem_cons_self c cs) h2
  | cons x xs ih =>
    intro s₂ t₁ t₂ h1 h2 he
    match s₂, he with
    | [], he =>
      simp only [List.cons_append, List.nil_append, List.cons.injEq] at he
      exact absurd (by rw [← he.1]; exact List.mem_cons_self x xs) h1
    | c :: cs, he =>
      simp only [List.cons_append, List.cons.injEq] at he
      obtain ⟨hxc, hrest⟩ := he
      subst hxc
      have hih := ih cs t₁ t₂ (fun hm => h1 (List.mem_cons_of_mem _ hm))
        (fun hm => h2 (List.mem_cons_of_mem _ hm)) hrest
      exact ⟨by rw [hih.1], hih.2⟩

theorem encNl_inj (f₁ : List (List Char)) : ∀ f₂,
    (∀ f ∈ f₁, '\n' ∉ f) → (∀ f ∈ f₂, '\n' ∉ f) →
    f₁.foldr (fun f acc => f ++ '\n' :: acc) [] =
      f₂.foldr (fun f acc => f ++ '\n' :: acc) [] →
    f₁ = f₂ := by
  induction f₁ with
  | nil =>
    intro f₂ _ _ he
    match f₂ with
    | [] => rfl
    | g :: gs =>
      simp only [List.foldr_nil, List.foldr_cons] at he
      exact absurd he.symm (by simp)
  | cons f fs ih =>
    intro f₂ h1 h2 he
    match f₂ with
    | [] =>
      simp only [List.foldr_cons, List.foldr_nil] at he
      exact absurd he (by simp)
    | g :: gs =>
      simp only [List.foldr_cons] at he
      have hsp := splitNl f g _ _ (h1 f (by simp)) (h2 g (by simp)) he
      have hih := ih gs (fun x hx => h1 x (by simp [hx]))
        (fun x hx => h2 x (by simp [hx])) hsp.2
      rw [hsp.1, hih]

theorem keyOf_inj (s₁ s₂ : List Char) (f₁ f₂ : List (List Char))
    (hs₁ : '\n' ∉ s₁) (hs₂ : '\n' ∉ s₂)
    (hf₁ : ∀ f ∈ f₁, '\n' ∉ f) (hf₂ : ∀ f ∈ f₂, '\n' ∉ f)
    (h : keyOf s₁ f₁ = keyOf s₂ f₂) : s₁ = s₂ ∧ f₁ = f₂ := by
  unfold keyOf at h
  have hsp := splitNl s₁ s₂ _ _ hs₁ hs₂ h
  exact ⟨hsp.1, encNl_inj f₁ f₂ hf₁ hf₂ hsp.2⟩

/-- Characters of a parsed record's status: never a comma; never a
newline when the block's lines have none. -/
theorem parsedStatus_chars (lines : List (List Char)) (ps : ParsedStack)
    (hp : parseStack lines = some ps) (hn : ∀ l ∈ lines, '\n' ∉ l) :
    ',' ∉ ps.status ∧ '\n' ∉ ps.status := by
  obtain ⟨hlen, m, fs, hm, -, -, hstat, -, -, -⟩ := parseStack_some_parts lines ps hp
  have hsound := goroutineMatch_status _ _ hm
  have hline0 : lines.getD 0 [] ∈ lines := by
    match lines, hlen with
    | a :: rest, _ => exact List.mem_cons_self a rest
  constructor
  · intro hc
    exact hsound.2 ',' (by rw [← hstat]; exact hc) rfl
  · intro hc
    exact (hn _ hline0) (hsound.1 '\n' (by rw [← hstat]; exact hc))

/-- Function names of a parsed record's frames never contain a newline. -/
theorem parsedFns_nonl (lines : List (List Char)) (ps : ParsedStack)
    (hp : parseStack lines = some ps) :
    ∀ f ∈ ps.frames.map Frame.fn, '\n' ∉ f := by
  obtain ⟨-, m, fs, -, hf, -, -, hfr, -, -⟩ := parseStack_some_parts lines ps hp
  intro f hfmem
  rw [hfr] at hfmem
  obtain ⟨fr, hfr2, hfeq⟩ := List.mem_map.mp hfmem
  rw [← hfeq]
  exact parseFrames_fn_nonl (lines.drop 1) fs hf fr hfr2

/-! ## Claim C10 (status characters) — confirmed -/

/-- C10: a successfully parsed record's status contains no comma (the
header's `[^,]+` class) and, since scanner lines contain no newline, no
newline either — so the newline-separated key and the comma-joined status
display are unambiguous. -/
theorem C10_theorem (lines : List (List Char)) (ps : ParsedStack)
    (hp : parseStack lines = some ps) (hn : ∀ l ∈ lines, '\n' ∉ l) :
    ',' ∉ ps.status ∧ '\n' ∉ ps.status :=
  parsedStatus_chars lines ps hp hn

/-! ## Claim C4 (grouping key iff) — confirmed -/

/-- C4: for records parsed from newline-free lines (all scanner lines
are), keys are byte-identical exactly when status and the ordered
function-name sequence agree — the key neither depends on any other field
nor collides across different statuses or frame names. -/
theorem C4_theorem (lines₁ lines₂ : List (List Char)) (ps₁ ps₂ : ParsedStack)
    (h₁ : parseStack lines₁ = some ps₁) (h₂ : parseStack lines₂ = some ps₂)
    (hn₁ : ∀ l ∈ lines₁, '\n' ∉ l) (hn₂ : ∀ l ∈ lines₂, '\n' ∉ l) :
    ps₁.key = ps₂.key ↔
      (ps₁.status = ps₂.status ∧
       ps₁.frames.map Frame.fn = ps₂.frames.map Frame.fn) := by
  obtain ⟨hlen₁, m₁, fs₁, hm₁, hf₁, -, hstat₁, hfr₁, hkey₁, -⟩ :=
    parseStack_some_parts lines₁ ps₁ h₁
  obtain ⟨hlen₂, m₂, fs₂, hm₂, hf₂, -, hstat₂, hfr₂, hkey₂, -⟩ :=
    parseStack_some_parts lines₂ ps₂ h₂
  have hkk₁ : ps₁.key = keyOf ps₁.status (ps₁.frames.map Frame.fn) := by
    rw [hkey₁, hstat₁, hfr₁]
  have hkk₂ : ps₂.key = keyOf ps₂.status (ps₂.frames.map Frame.fn) := by
    rw [hkey₂, hstat₂, hfr₂]
  constructor
  · intro hk
    rw [hkk₁, hkk₂] at hk
    exact keyOf_inj _ _ _ _
      (parsedStatus_chars lines₁ ps₁ h₁ hn₁).2
      (parsedStatus_chars lines₂ ps₂ h₂ hn₂).2
      (parsedFns_nonl lines₁ ps₁ h₁) (parsedFns_nonl lines₂ ps₂ h₂) hk
  · intro hk
    rw [hkk₁, hkk₂, hk.1, hk.2]

/-- Witness for C10 at a concrete block. -/
theorem C10_witness :
    ',' ∉ (⟨1, ['x'], 0, [], ⟨['-'], [], ("b.go").data, 1, 0⟩,
            ['x', '\n']⟩ : ParsedStack).status ∧
    '\n' ∉ (⟨1, ['x'], 0, [], ⟨['-'], [], ("b.go").data, 1, 0⟩,
            ['x', '\n']⟩ : ParsedStack).status :=
  C10_theorem [("goroutine 1 [x]:").data, ("main.main()").data, ("b.go:1").data]
    ⟨1, ['x'], 0, [], ⟨['-'], [], ("b.go").data, 1, 0⟩, ['x', '\n']⟩
    (by decide) (by decide)

/-- Witness for C4 at two blocks that differ only in goroutine id,
waiting minutes, frame arguments, source lines and offsets. -/
theorem C4_witness :
    (⟨1, ("chan receive").data, 5,
       [⟨("main.foo").data, ("0x1").data, ("/a/b.go").data, 10, 5⟩],
       ⟨("main.bar").data, [], ("/a/c.go").data, 20, 1⟩,
       ("chan receive\nmain.foo\n").data⟩ : ParsedStack).key =
      (⟨2, ("chan receive").data, 7,
         [⟨("main.foo").data, ("0x2").data, ("/a/b.go").data, 11, 7⟩],
         ⟨("main.bar").data, [], ("/a/c.go").data, 21, 2⟩,
         ("chan receive\nmain.foo\n").data⟩ : ParsedStack).key ↔
    ((⟨1, ("chan receive").data, 5,
        [⟨("main.foo").data, ("0x1").data, ("/a/b.go").data, 10, 5⟩],
        ⟨("main.bar").data, [], ("/a/c.go").data, 20, 1⟩,
        ("chan receive\nmain.foo\n").data⟩ : ParsedStack).status =
      (⟨2, ("chan receive").data, 7,
         [⟨("main.foo").data, ("0x2").data, ("/a/b.go").data, 11, 7⟩],
         ⟨("main.bar").data, [], ("/a/c.go").data, 21, 2⟩,
         ("chan receive\nmain.foo\n").data⟩ : ParsedStack).status ∧
     (⟨1, ("chan receive").data, 5,
        [⟨("main.foo").data, ("0x1").data, ("/a/b.go").data, 10, 5⟩],
        ⟨("main.bar").data, [], ("/a/c.go").data, 20, 1⟩,
        ("chan receive\nmain.foo\n").data⟩ : ParsedStack).frames.map Frame.fn =
      (⟨2, ("chan receive").data, 7,
         [⟨("main.foo").data, ("0x2").data, ("/a/b.go").data, 11, 7⟩],
         ⟨("main.bar").data, [], ("/a/c.go").data, 21, 2⟩,
         ("chan receive\nmain.foo\n").data⟩ : ParsedStack).frames.map Frame.fn) :=
  C4_theorem
    [("goroutine 1 [chan receive, 5 minutes]:").data,
     ("main.foo(0x1)").data, ("/a/b.go:10 +0x5").data,
     ("created by main.bar in goroutine 0").data, ("/a/c.go:20 +0x1").data]
    [("goroutine 2 [chan receive, 7 minutes]:").data,
     ("main.foo(0x2)").data, ("/a/b.go:11 +0x7").data,
     ("created by main.bar in goroutine 0").data, ("/a/c.go:21 +0x2").data]
    _ _ (by decide) (by decide) (by decide) (by decide)

/-! ## Claim C2 (odd interior region) — confirmed

The heart of the claim: in the odd case the loop reads the created-by
line as a location line, and a line accepted by `createdMatcher` (or the
`main.main()` sentinel) can never match `locationMatcher`, so the parse
fails rather than silently dropping the unpaired line. -/

theorem cmStop_inv (pRev r cRes : List Char) (h : cmStop pRev r = some cRes) :
    cRes = pRev.reverse ∧
    ∃ d, r = (" in goroutine ").data ++ d ∧ d ≠ [] ∧ d.all isDigitCh = true := by
  unfold cmStop at h
  split at h
  · exact absurd h (by simp)
  · split at h
    · next d hd =>
      split at h
      · next hcond =>
        injection h with h2
        subst h2
        simp only [Bool.and_eq_true, ne_eq, decide_not, Bool.not_eq_eq_eq_not,
          Bool.not_true, decide_eq_false_iff_not] at hcond
        exact ⟨rfl, d, stripLead_sound _ _ _ hd, hcond.1, hcond.2⟩
      · exact absurd h (by simp)
    · exact absurd h (by simp)

theorem cmTail_sound (r : List Char) : ∀ pRev cRes, cmTail pRev r = some cRes →
    ∃ mid d, r = mid ++ (" in goroutine ").data ++ d ∧
      cRes = pRev.reverse ++ mid ∧ d ≠ [] ∧ d.all isDigitCh = true := by
  induction r with
  | nil =>
    intro pRev cRes h
    rw [cmTail] at h
    obtain ⟨h1, d, hd, hd2, hd3⟩ := cmStop_inv pRev [] cRes h
    exact absurd hd.symm (by simp)
  | cons c0 r' ih =>
    intro pRev cRes h
    simp only [cmTail] at h
    split at h
    · obtain ⟨h1, d, hd, hd2, hd3⟩ := cmStop_inv _ _ _ h
      exact ⟨[], d, by simpa using hd, by simpa using h1, hd2, hd3⟩
    · split at h
      · next res hres =>
        injection h with h2
        subst h2
        obtain ⟨mid, d, hdec, hres2, hd2, hd3⟩ := ih (c0 :: pRev) res hres
        refine ⟨c0 :: mid, d, ?_, ?_, hd2, hd3⟩
        · rw [hdec]; simp
        · rw [hres2, List.reverse_cons, List.append_assoc, List.singleton_append]
      · obtain ⟨h1, d, hd, hd2, hd3⟩ := cmStop_inv _ _ _ h
        exact ⟨[], d, by simpa using hd, by simpa using h1, hd2, hd3⟩

theorem createdMatch_sound (l cRes : List Char) (h : createdMatch l = some cRes) :
    ∃ d, l = ("created by ").data ++ (cRes ++ ((" in goroutine ").data ++ d)) ∧
      d ≠ [] ∧ d.all isDigitCh = true := by
  unfold createdMatch at h
  split at h
  · next r hr =>
    obtain ⟨mid, d, hdec, hres, hd2, hd3⟩ := cmTail_sound r [] cRes h
    refine ⟨d, ?_, hd2, hd3⟩
    rw [stripLead_sound _ _ _ hr, hdec, hres]
    simp
  · exact absurd h (by simp)

theorem locTail_inv (r : List Char) (d o : List Char) (h : locTail r = some (d, o)) :
    d ≠ [] ∧ d.all isDigitCh = true ∧
    ((o = [] ∧ r = d) ∨
     (∃ hx, o = '0' :: 'x' :: hx ∧ hx ≠ [] ∧ hx.all isLowerHexCh = true ∧
        r = d ++ ' ' :: '+' :: '0' :: 'x' :: hx)) := by
  have hdall : (r.takeWhile isDigitCh).all isDigitCh = true :=
    List.all_eq_true.mpr (fun x hx => List.mem_takeWhile_imp hx)
  unfold locTail at h
  split at h
  · exact absurd h (by simp)
  · next hne =>
    split at h
    · next hdrop =>
      simp only [Option.some.injEq, Prod.mk.injEq] at h
      have hr : List.takeWhile isDigitCh r ++ List.dropWhile isDigitCh r = r :=
        List.takeWhile_append_dropWhile _ _
      rw [hdrop, List.append_nil] at hr
      refine ⟨by rw [← h.1]; exact hne, by rw [← h.1]; exact hdall,
        Or.inl ⟨h.2.symm, ?_⟩⟩
      rw [← h.1]
      exact hr.symm
    · next hx hdrop =>
      split at h
      · next hcond =>
        simp only [Option.some.injEq, Prod.mk.injEq] at h
        simp only [Bool.and_eq_true, ne_eq, decide_not, Bool.not_eq_eq_eq_not,
          Bool.not_true, decide_eq_false_iff_not] at hcond
        have hr : List.takeWhile isDigitCh r ++ List.dropWhile isDigitCh r = r :=
          List.takeWhile_append_dropWhile _ _
        rw [hdrop] at hr
        refine ⟨by rw [← h.1]; exact hne, by rw [← h.1]; exact hdall,
          Or.inr ⟨hx, h.2.symm, hcond.1, hcond.2, ?_⟩⟩
        rw [← h.1]
        exact hr.symm
      · exact absurd h (by simp)
    · exact absurd h (by simp)

theorem locStop_inv (pRev r : List Char) (caps : LocCaps)
    (h : locStop pRev r = some caps) :
    caps.path = pRev.reverse ∧
    ∃ rest, r = ':' :: rest ∧
      locTail rest = some (caps.linedigits, caps.offdigits) := by
  unfold locStop at h
  split at h
  · exact absurd h (by simp)
  · split at h
    · next rest =>
      split at h
      · next d o hdo =>
        injection h with h2
        subst h2
        exact ⟨rfl, rest, rfl, hdo⟩
      · exact absurd h (by simp)
    · exact absurd h (by simp)

theorem locAux_sound (r : List Char) : ∀ pRev caps, locAux pRev r = some caps →
    ∃ mid rest, r = mid ++ ':' :: rest ∧ caps.path = pRev.reverse ++ mid ∧
      locTail rest = some (caps.linedigits, caps.offdigits) := by
  induction r with
  | nil =>
    intro pRev caps h
    rw [locAux] at h
    obtain ⟨h1, rest, hr, hlt⟩ := locStop_inv pRev [] caps h
    exact absurd hr (by simp)
  | cons c0 r' ih =>
    intro pRev caps h
    simp only [locAux] at h
    split at h
    · obtain ⟨h1, rest, hr, hlt⟩ := locStop_inv _ _ _ h
      exact ⟨[], rest, by simpa using hr, by simpa using h1, hlt⟩
    · split at h
      · next res hres =>
        injection h with h2
        subst h2
        obtain ⟨mid, rest, hdec, hpath, hlt⟩ := ih (c0 :: pRev) res hres
        refine ⟨c0 :: mid, rest, ?_, ?_, hlt⟩
        · rw [hdec]; simp
        · rw [hpath, List.reverse_cons, List.append_assoc, List.singleton_append]
      · obtain ⟨h1, rest, hr, hlt⟩ := locStop_inv _ _ _ h
        exact ⟨[], rest, by simpa using hr, by simpa using h1, hlt⟩

theorem locationMatch_sound (l : List Char) (caps : LocCaps)
    (h : locationMatch l = some caps) :
    ∃ rest, l = caps.path ++ ':' :: rest ∧
      locTail rest = some (caps.linedigits, caps.offdigits) := by
  obtain ⟨mid, rest, hdec, hpath, hlt⟩ := locAux_sound l [] caps h
  exact ⟨rest, by rw [hdec, hpath]; simp, hlt⟩

theorem getElem?_append_left_mem {α : Type} (A B : List α) (i : Nat)
    (hi : i < A.length) : ∃ x, (A ++ B)[i]? = some x ∧ x ∈ A := by
  refine ⟨A[i], ?_, List.getElem_mem hi⟩
  rw [List.getElem?_append, if_pos hi, List.getElem?_eq_getElem hi]

theorem getElem?_append_head {α : Type} (A : List α) (b : α) (B : List α) :
    (A ++ b :: B)[A.length]? = some b := by
  rw [List.getElem?_append, if_neg (by omega)]
  simp

theorem mainmain_not_location : locationMatch (("main.main()").data) = none := by
  decide

/-- A line accepted by `createdMatcher` is never accepted by
`locationMatcher`: such a line ends in the goroutine digit run, and read
from the right the location grammar would need its colon (or the `x` of
an offset) at a position where ` in goroutine ` puts a space or a digit. -/
theorem created_not_location (l cRes : List Char)
    (hc : createdMatch l = some cRes) : locationMatch l = none := by
  rcases hl : locationMatch l with _ | caps
  · rfl
  exfalso
  obtain ⟨d, hdec, hdne, hdall⟩ := createdMatch_sound l cRes hc
  obtain ⟨rest, hldec, hlt⟩ := locationMatch_sound l caps hl
  obtain ⟨hDne, hDall, hor⟩ := locTail_inv rest _ _ hlt
  have hIGrev : ((" in goroutine ").data).reverse = ' ' :: ("enituorog ni ").data := by
    decide
  have hrev1 : l.reverse = d.reverse ++ ' ' ::
      (("enituorog ni ").data ++ (cRes.reverse ++ (("created by ").data).reverse)) := by
    rw [hdec]
    simp only [List.reverse_append, hIGrev]
    simp [List.append_assoc]
  have hF1 : l.reverse[d.length]? = some ' ' := by
    rw [hrev1, ← List.length_reverse d]
    exact getElem?_append_head _ _ _
  have hF2 : ∀ i, i < d.length → ∃ x, l.reverse[i]? = some x ∧ x ∈ d := by
    intro i hi
    obtain ⟨x, hx1, hx2⟩ := getElem?_append_left_mem d.reverse
      (' ' :: (("enituorog ni ").data ++ (cRes.reverse ++ (("created by ").data).reverse)))
      i (by rw [List.length_reverse]; exact hi)
    exact ⟨x, by rw [hrev1]; exact hx1, List.mem_reverse.mp hx2⟩
  rcases hor with ⟨hoEmpty, hrest⟩ | ⟨hexs, hoform, hexne, hexall, hrest⟩
  · -- no offset: l.reverse = linedigits.reverse ++ ':' :: path.reverse
    have hrev2 : l.reverse = caps.linedigits.reverse ++ ':' :: caps.path.reverse := by
      rw [hldec, hrest]
      simp [List.reverse_cons, List.append_assoc]
    have hG1 : l.reverse[caps.linedigits.length]? = some ':' := by
      rw [hrev2, ← List.length_reverse caps.linedigits]
      exact getElem?_append_head _ _ _
    have hG2 : ∀ i, i < caps.linedigits.length →
        ∃ x, l.reverse[i]? = some x ∧ x ∈ caps.linedigits := by
      intro i hi
      obtain ⟨x, hx1, hx2⟩ := getElem?_append_left_mem caps.linedigits.reverse
        (':' :: caps.path.reverse) i (by rw [List.length_reverse]; exact hi)
      exact ⟨x, by rw [hrev2]; exact hx1, List.mem_reverse.mp hx2⟩
    rcases Nat.lt_trichotomy caps.linedigits.length d.length with hlt | heq | hgt
    · obtain ⟨x, hx1, hx2⟩ := hF2 caps.linedigits.length hlt
      rw [hG1] at hx1
      have hxc : x = ':' := Option.some.inj hx1.symm
      subst hxc
      exact absurd (List.all_eq_true.mp hdall ':' hx2) (by decide)
    · rw [heq, hF1] at hG1
      exact absurd (Option.some.inj hG1) (by decide)
    · obtain ⟨x, hx1, hx2⟩ := hG2 d.length hgt
      rw [hF1] at hx1
      have hxc : x = ' ' := Option.some.inj hx1.symm
      subst hxc
      exact absurd (List.all_eq_true.mp hDall ' ' hx2) (by decide)
  · -- offset present: l.reverse = hexs.reverse ++ 'x' :: …
    have hrev3 : l.reverse = hexs.reverse ++ 'x' ::
        ('0' :: '+' :: ' ' ::
          (caps.linedigits.reverse ++ ':' :: caps.path.reverse)) := by
      rw [hldec, hrest]
      simp [List.reverse_cons, List.append_assoc]
    have hH1 : l.reverse[hexs.length]? = some 'x' := by
      rw [hrev3, ← List.length_reverse hexs]
      exact getElem?_append_head _ _ _
    have hH2 : ∀ i, i < hexs.length → ∃ x, l.reverse[i]? = some x ∧ x ∈ hexs := by
      intro i hi
      obtain ⟨x, hx1, hx2⟩ := getElem?_append_left_mem hexs.reverse
        ('x' :: ('0' :: '+' :: ' ' ::
          (caps.linedigits.reverse ++ ':' :: caps.path.reverse)))
        i (by rw [List.length_reverse]; exact hi)
      exact ⟨x, by rw [hrev3]; exact hx1, List.mem_reverse.mp hx2⟩
    rcases Nat.lt_trichotomy hexs.length d.length with hlt | heq | hgt
    · obtain ⟨x, hx1, hx2⟩ := hF2 hexs.length hlt
      rw [hH1] at hx1
      have hxc : x = 'x' := Option.some.inj hx1.symm
      subst hxc
      exact absurd (List.all_eq_true.mp hdall 'x' hx2) (by decide)
    · rw [heq, hF1] at hH1
      exact absurd (Option.some.inj hH1) (by decide)
    · obtain ⟨x, hx1, hx2⟩ := hH2 d.length hgt
      rw [hF1] at hx1
      have hxc : x = ' ' := Option.some.inj hx1.symm
      subst hxc
      exact absurd (List.all_eq_true.mp hexall ' ' hx2) (by decide)

/-- If the interior list handed to the loop has odd length (at least 3)
and its second-to-last line — the block's created-by line — fails
`locationMatcher`, the loop fails. -/
theorem parseFrames_none_oddfail (L : List (List Char)) :
    L.length % 2 = 1 → 3 ≤ L.length →
    locationMatch (L.getD (L.length - 2) []) = none → parseFrames L = none := by
  induction L using parseFrames.induct with
  | case1 l₁ l₂ l₃ rest h1 =>
    intro _ _ _
    simp [parseFrames, h1]
  | case2 l₁ l₂ l₃ rest fn args h1 h2 =>
    intro _ _ _
    simp [parseFrames, h1, h2]
  | case3 l₁ l₂ l₃ rest fn args h1 lc h2 ln off hoff hln h3 ih =>
    intro _ _ _
    simp [parseFrames, h1, h2, hln, hoff, h3]
  | case4 l₁ l₂ l₃ rest fn args h1 lc h2 ln off hoff hln fs2 h3 ih =>
    intro hodd h3len hfail
    exfalso
    match rest, hodd, hfail, ih with
    | [], hodd, hfail, ih =>
      -- a 3-line interior: the "location" of the only pair is l₂ itself,
      -- which is the failing created-by line
      have hfl : locationMatch l₂ = none := hfail
      rw [h2] at hfl
      exact absurd hfl (by simp)
    | r₄ :: rest2, hodd, hfail, ih =>
      have hodd2 : (l₃ :: r₄ :: rest2).length % 2 = 1 := by
        simp only [List.length_cons] at hodd ⊢
        omega
      have h3len2 : 3 ≤ (l₃ :: r₄ :: rest2).length := by
        simp only [List.length_cons] at hodd ⊢
        omega
      have hfail2 : locationMatch ((l₃ :: r₄ :: rest2).getD
          ((l₃ :: r₄ :: rest2).length - 2) []) = none := by
        have hidx : (l₁ :: l₂ :: l₃ :: r₄ :: rest2).getD
            ((l₁ :: l₂ :: l₃ :: r₄ :: rest2).length - 2) [] =
            (l₃ :: r₄ :: rest2).getD ((l₃ :: r₄ :: rest2).length - 2) [] := by
          simp only [List.length_cons]
          rw [show rest2.length + 1 + 1 + 1 + 1 - 2 = (rest2.length + 1 + 1 - 2) + 2 by omega]
          rw [List.getD_cons_succ, List.getD_cons_succ]
        rw [← hidx]
        exact hfail
      exact absurd (ih hodd2 h3len2 hfail2) (by rw [h3]; simp)
  | case5 l₁ l₂ l₃ rest fn args h1 lc h2 hfalse =>
    intro _ _ _
    rcases hdl : digits lc.linedigits with _ | ln
    · simp [parseFrames, h1, h2, hdl]
    · rcases hdo : digits lc.offdigits with _ | off
      · simp [parseFrames, h1, h2, hdl, hdo]
      · exact absurd (hfalse ln off hdl hdo) (by simp)
  | case6 t ht =>
    intro hodd h3len hfail
    exfalso
    match t, ht, h3len with
    | [], _, h3len => simp at h3len
    | [a], _, h3len => simp at h3len
    | [a, b], _, h3len => simp at h3len
    | a :: b :: c :: rest, ht, _ => exact (ht a b c rest rfl).elim

/-- C2: a block whose interior region (the lines strictly between the
header line and the created-by line) has an odd number of lines always
fails to parse: the final loop iteration reads the created-by line as a
location line, which can never match, so the unpaired line is a parse
error, never silently dropped, and no record is produced. -/
theorem C2_theorem (lines : List (List Char)) (h3 : 3 ≤ lines.length)
    (hodd : (lines.length - 3) % 2 = 1) : parseStack lines = none := by
  rcases hps : parseStack lines with _ | ps
  · rfl
  exfalso
  obtain ⟨hlen, m, fs, hm, hf, hcr, -, -, -, -⟩ := parseStack_some_parts lines ps hps
  have hclfail : locationMatch (lines.getD (lines.length - 2) []) = none := by
    rcases hcr with hmm | ⟨cfn, hcm⟩
    · rw [hmm]; exact mainmain_not_location
    · exact created_not_location _ _ hcm
  have hL1 : (lines.drop 1).length = lines.length - 1 := by simp
  have hodd2 : (lines.drop 1).length % 2 = 1 := by rw [hL1]; omega
  have h3L : 3 ≤ (lines.drop 1).length := by rw [hL1]; omega
  have hidx : 1 + ((lines.length - 1) - 2) = lines.length - 2 := by omega
  have hgetD : (lines.drop 1).getD ((lines.drop 1).length - 2) [] =
      lines.getD (lines.length - 2) [] := by
    rw [List.getD_eq_getElem?_getD, List.getD_eq_getElem?_getD,
      List.getElem?_drop, hL1, hidx]
  have hnone := parseFrames_none_oddfail (lines.drop 1) hodd2 h3L
    (by rw [hgetD]; exact hclfail)
  rw [hnone] at hf
  exact absurd hf (by simp)

/-- Witness for C2 at a 4-line block (one unpaired interior line). -/
theorem C2_witness :
    parseStack [("goroutine 1 [x]:").data, ("main.foo(1)").data,
                ("created by main.bar in goroutine 0").data,
                ("/a/c.go:20").data] = none :=
  C2_theorem
    [("goroutine 1 [x]:").data, ("main.foo(1)").data,
     ("created by main.bar in goroutine 0").data, ("/a/c.go:20").data]
    (by decide) (by decide)

/-! ## Claim C3 (record-count conservation) — corrected

`addLines` is invoked on every blank line and once at end of input with
no emptiness check, and `parseStack []` is a "not enough lines" error, so
every flush with an empty buffer adds one to the error count. -/

theorem addLines_inv (st : MainState) :
    (addLines st).stks.length + (addLines st).errors
      = st.stks.length + st.errors + 1 := by
  unfold addLines
  split <;> simp <;> omega

theorem scanLoop_inv (input : List (List Char)) : ∀ st : MainState,
    (scanLoop input st).stks.length + (scanLoop input st).errors
      = st.stks.length + st.errors
        + input.countP (fun raw => trimSpace raw = []) := by
  induction input with
  | nil => intro st; simp [scanLoop]
  | cons raw rest ih =>
    intro st
    simp only [scanLoop]
    split
    · next hblank =>
      rw [ih (addLines st), addLines_inv, List.countP_cons]
      simp [hblank]
      omega
    · next hnb =>
      rw [ih ⟨st.lines ++ [trimSpace raw], st.stks, st.errors⟩, List.countP_cons]
      simp [hnb]

theorem runScan_records_errors (input : List (List Char)) :
    (runScan input).stks.length + (runScan input).errors
      = input.countP (fun raw => trimSpace raw = []) + 1 := by
  unfold runScan
  rw [addLines_inv, scanLoop_inv]
  simp

theorem group_flatten (ps : List ParsedStack) :
    ((group ps).map Prod.snd).flatten = ps := by
  match ps with
  | [] => rfl
  | p :: rest =>
    show ((groupAux p.key [p] 1 rest).map Prod.snd).flatten = p :: rest
    rw [groupAux_flatten]
    rfl

theorem group_counts_len (ps : List ParsedStack) :
    ∀ g ∈ group ps, g.1 = g.2.length := by
  intro g hg
  match ps, hg with
  | [], hg => simp [group] at hg
  | p :: rest, hg =>
    exact (groupAux_counts rest p.key [p] 1 (by simp) (by simp) g hg).2

theorem group_sum_counts (ps : List ParsedStack) :
    ((group ps).map Prod.fst).sum = ps.length := by
  calc ((group ps).map Prod.fst).sum
      = ((group ps).map (fun g => g.2.length)).sum := by
        congr 1
        exact List.map_congr_left (group_counts_len ps)
    _ = (((group ps).map Prod.snd).map List.length).sum := by
        rw [List.map_map]
        rfl
    _ = ((group ps).map Prod.snd).flatten.length := by
        rw [List.length_flatten]
    _ = ps.length := by rw [group_flatten]

theorem sortStacks_length (sts : List ParsedStack) :
    (sortStacks sts).length = sts.length :=
  (List.perm_insertionSort _ sts).length_eq

/-- C3 counterexample: on a wholly empty input the claim predicts
`sum(count) + errors = 0` (no blocks), but the final `addLines()` flush
parses the empty buffer, fails with "not enough lines", and records one
error. -/
theorem C3_counterexample :
    ¬ (((group (sortStacks (runScan ([] : List (List Char))).stks)).map
          Prod.fst).sum
        + (runScan ([] : List (List Char))).errors
        = specBlockCount []) := by
  decide

/-- C3 (amended): every `addLines` flush — one per blank (after trimming)
line, plus one at end of input — contributes exactly one record or one
error, so `sum(count over all groups) + errorCount` equals the number of
blank lines plus one, not the number of blocks: each flush with an empty
buffer (leading, consecutive or trailing blank lines, and wholly empty
input) contributes a spurious error. -/
theorem C3_theorem (input : List (List Char)) :
    ((group (sortStacks (runScan input).stks)).map Prod.fst).sum
      + (runScan input).errors
      = input.countP (fun raw => trimSpace raw = []) + 1 := by
  rw [group_sum_counts, sortStacks_length]
  exact runScan_records_errors input

/-! ## Order lemmas for the bytewise comparison -/

theorem lexLt_irrefl (a : List Char) : lexLt a a = false := by
  induction a with
  | nil => rfl
  | cons x xs ih =>
    simp only [lexLt]
    rw [if_neg (lt_irrefl x)]
    simpa using ih

theorem lexLt_trans (a : List Char) : ∀ b c, lexLt a b = true → lexLt b c = true →
    lexLt a c = true := by
  induction a with
  | nil =>
    intro b c h1 h2
    match b, c with
    | [], _ => simp [lexLt] at h1
    | _ :: _, [] => simp [lexLt] at h2
    | _ :: _, _ :: _ => simp [lexLt]
  | cons x xs ih =>
    intro b c h1 h2
    match b, c with
    | [], _ => simp [lexLt] at h1
    | _ :: _, [] => simp [lexLt] at h2
    | y :: ys, z :: zs =>
      simp only [lexLt] at h1 h2 ⊢
      split at h1
      · next hxy =>
        split at h2
        · next hyz => rw [if_pos (lt_trans hxy hyz)]
        · split at h2
          · next hyz => rw [if_pos (hyz ▸ hxy)]
          · exact absurd h2 (by simp)
      · split at h1
        · next hxy =>
          subst hxy
          split at h2
          · next hyz => rw [if_pos hyz]
          · split at h2
            · next hyz =>
              subst hyz
              rw [if_neg (lt_irrefl x)]
              simpa using ih ys zs h1 h2
            · exact absurd h2 (by simp)
        · exact absurd h1 (by simp)

theorem lexLt_trichot (a : List Char) : ∀ b,
    lexLt a b = true ∨ a = b ∨ lexLt b a = true := by
  induction a with
  | nil =>
    intro b
    match b with
    | [] => exact Or.inr (Or.inl rfl)
    | _ :: _ => exact Or.inl (by simp [lexLt])
  | cons x xs ih =>
    intro b
    match b with
    | [] => exact Or.inr (Or.inr (by simp [lexLt]))
    | y :: ys =>
      rcases lt_trichotomy x y with hxy | hxy | hxy
      · exact Or.inl (by simp only [lexLt]; rw [if_pos hxy])
      · subst hxy
        rcases ih ys with h | h | h
        · refine Or.inl ?_
          simp only [lexLt]
          rw [if_neg (lt_irrefl x)]
          simpa using h
        · exact Or.inr (Or.inl (by rw [h]))
        · refine Or.inr (Or.inr ?_)
          simp only [lexLt]
          rw [if_neg (lt_irrefl x)]
          simpa using h
      · refine Or.inr (Or.inr ?_)
        simp only [lexLt]
        rw [if_pos hxy]

theorem lexLt_asymm (a b : List Char) (h : lexLt a b = true) : lexLt b a = false := by
  by_contra h2
  rw [Bool.not_eq_false] at h2
  have h3 := lexLt_trans a b a h h2
  rw [lexLt_irrefl] at h3
  exact absurd h3 (by simp)

theorem lexLt_connex (a b : List Char) (h1 : lexLt a b = false)
    (h2 : lexLt b a = false) : a = b := by
  rcases lexLt_trichot a b with h | h | h
  · rw [h] at h1; exact absurd h1 (by simp)
  · exact h
  · rw [h] at h2; exact absurd h2 (by simp)

theorem lexLe_total (a b : List Char) : (!lexLt b a) = true ∨ (!lexLt a b) = true := by
  rcases lexLt_trichot a b with h | h | h
  · left; rw [lexLt_asymm a b h]; rfl
  · left; subst h; rw [lexLt_irrefl]; rfl
  · right; rw [lexLt_asymm b a h]; rfl

theorem lexLe_trans (a b c : List Char) (h1 : (!lexLt b a) = true)
    (h2 : (!lexLt c b) = true) : (!lexLt c a) = true := by
  simp only [Bool.not_eq_true'] at h1 h2 ⊢
  by_contra h3
  rw [Bool.not_eq_false] at h3
  rcases lexLt_trichot c b with hcb | hcb | hcb
  · rw [hcb] at h2; exact absurd h2 (by simp)
  · rw [hcb] at h3; rw [h3] at h1; exact absurd h1 (by simp)
  · have h4 := lexLt_trans b c a hcb h3
    rw [h4] at h1
    exact absurd h1 (by simp)

/-! ## Sortedness of the two sorts -/

theorem sortStacks_sorted (sts : List ParsedStack) :
    List.Pairwise (fun a b : ParsedStack => (!lexLt b.key a.key) = true)
      (sortStacks sts) := by
  have htot : ∀ a b : ParsedStack,
      ((!lexLt b.key a.key) = true) ∨ ((!lexLt a.key b.key) = true) :=
    fun a b => lexLe_total a.key b.key
  have htrans : ∀ a b c : ParsedStack, (!lexLt b.key a.key) = true →
      (!lexLt c.key b.key) = true → (!lexLt c.key a.key) = true :=
    fun a b c h1 h2 => lexLe_trans a.key b.key c.key h1 h2
  exact @List.sorted_insertionSort ParsedStack _ _ ⟨htot⟩ ⟨htrans⟩ sts

theorem sortedStatuses_sorted (ps : List ParsedStack) :
    List.Pairwise (fun a b : List Char => (!lexLt b a) = true)
      (sortedStatuses ps) :=
  @List.sorted_insertionSort (List Char) _ _ ⟨lexLe_total⟩ ⟨lexLe_trans⟩
    (ps.map ParsedStack.status).dedup

theorem sortedStatuses_nodup (ps : List ParsedStack) :
    (sortedStatuses ps).Nodup :=
  ((List.perm_insertionSort _ _).symm).nodup
    (List.nodup_dedup (ps.map ParsedStack.status))

theorem sortedStatuses_mem (ps : List ParsedStack) (s : List Char) :
    s ∈ sortedStatuses ps ↔ s ∈ ps.map ParsedStack.status := by
  unfold sortedStatuses
  rw [(List.perm_insertionSort _ _).mem_iff, List.mem_dedup]

/-! ## Per-run facts of `group` -/

theorem groupAux_runkey (rest : List ParsedStack) :
    ∀ k curRev count, (∀ q ∈ curRev, q.key = k) →
    ∀ g ∈ groupAux k curRev count rest, ∀ q₁ ∈ g.2, ∀ q₂ ∈ g.2,
      q₁.key = q₂.key := by
  induction rest with
  | nil =>
    intro k curRev count hinv g hg q₁ hq₁ q₂ hq₂
    simp only [groupAux, List.mem_singleton] at hg
    subst hg
    rw [hinv q₁ (List.mem_reverse.mp hq₁), hinv q₂ (List.mem_reverse.mp hq₂)]
  | cons q qs ih =>
    intro k curRev count hinv g hg q₁ hq₁ q₂ hq₂
    by_cases hq : q.key = k
    · simp only [groupAux, if_pos hq] at hg
      refine ih k (q :: curRev) (count + 1) ?_ g hg q₁ hq₁ q₂ hq₂
      intro x hx
      rcases List.mem_cons.mp hx with h | h
      · subst h; exact hq
      · exact hinv x h
    · simp only [groupAux, if_neg hq, List.mem_cons] at hg
      rcases hg with hg | hg
      · subst hg
        rw [hinv q₁ (List.mem_reverse.mp hq₁), hinv q₂ (List.mem_reverse.mp hq₂)]
      · exact ih q.key [q] 1 (by simp) g hg q₁ hq₁ q₂ hq₂

theorem groupAux_head_key (rest : List ParsedStack) :
    ∀ k curRev count, (∀ q ∈ curRev, q.key = k) →
    ∃ g tl, groupAux k curRev count rest = g :: tl ∧ ∀ q ∈ g.2, q.key = k := by
  induction rest with
  | nil =>
    intro k curRev count hinv
    exact ⟨(count, curRev.reverse), [], rfl,
      fun q hq => hinv q (List.mem_reverse.mp hq)⟩
  | cons q qs ih =>
    intro k curRev count hinv
    by_cases hq : q.key = k
    · simp only [groupAux, if_pos hq]
      refine ih k (q :: curRev) (count + 1) ?_
      intro x hx
      rcases List.mem_cons.mp hx with h | h
      · subst h; exact hq
      · exact hinv x h
    · simp only [groupAux, if_neg hq]
      exact ⟨(count, curRev.reverse), _, rfl,
        fun x hx => hinv x (List.mem_reverse.mp hx)⟩

theorem groupAux_chain (rest : List ParsedStack) :
    ∀ k curRev count, (∀ q ∈ curRev, q.key = k) →
    List.Chain' (fun a b : ParsedStack => (!lexLt b.key a.key) = true) rest →
    (∀ q, rest.head? = some q → (!lexLt q.key k) = true) →
    List.Chain' (fun g₁ g₂ : Nat × List ParsedStack =>
        ∀ q₁ ∈ g₁.2, ∀ q₂ ∈ g₂.2, lexLt q₁.key q₂.key = true)
      (groupAux k curRev count rest) := by
  induction rest with
  | nil =>
    intro k curRev count _ _ _
    simp [groupAux]
  | cons q qs ih =>
    intro k curRev count hinv hch hlink
    have hchtail := hch.tail
    have hheadrel := (List.chain'_cons'.mp hch).1
    by_cases hq : q.key = k
    · simp only [groupAux, if_pos hq]
      refine ih k (q :: curRev) (count + 1) ?_ hchtail ?_
      · intro x hx
        rcases List.mem_cons.mp hx with h | h
        · subst h; exact hq
        · exact hinv x h
      · intro q' hq'
        rw [← hq]
        exact hheadrel q' hq'
    · simp only [groupAux, if_neg hq]
      obtain ⟨g₂, tl, heq, hg₂⟩ := groupAux_head_key qs q.key [q] 1 (by simp)
      rw [heq]
      apply List.chain'_cons'.mpr
      constructor
      · intro y hy
        rw [List.head?_cons, Option.mem_def, Option.some.injEq] at hy
        subst hy
        intro q₁ hq₁ q₂ hq₂
        rw [hinv q₁ (List.mem_reverse.mp hq₁), hg₂ q₂ hq₂]
        have hle := hlink q rfl
        rw [Bool.not_eq_true'] at hle
        rcases lexLt_trichot k q.key with h | h | h
        · exact h
        · exact absurd h.symm hq
        · rw [h] at hle; exact absurd hle (by simp)
      · rw [← heq]
        refine ih q.key [q] 1 (by simp) hchtail ?_
        intro q' hq'
        exact hheadrel q' hq'

theorem group_chain (ps : List ParsedStack)
    (hs : List.Chain' (fun a b : ParsedStack => (!lexLt b.key a.key) = true) ps) :
    List.Chain' (fun g₁ g₂ : Nat × List ParsedStack =>
        ∀ q₁ ∈ g₁.2, ∀ q₂ ∈ g₂.2, lexLt q₁.key q₂.key = true) (group ps) := by
  match ps with
  | [] => simp [group]
  | p :: rest =>
    show List.Chain' _ (groupAux p.key [p] 1 rest)
    refine groupAux_chain rest p.key [p] 1 (by simp) hs.tail ?_
    exact (List.chain'_cons'.mp hs).1

theorem group_nonempty_counts (ps : List ParsedStack) :
    ∀ g ∈ group ps, g.2 ≠ [] ∧ g.1 = g.2.length := by
  intro g hg
  match ps, hg with
  | [], hg => simp [group] at hg
  | p :: rest, hg =>
    exact groupAux_counts rest p.key [p] 1 (by simp) (by simp) g hg

theorem group_runkey (ps : List ParsedStack) :
    ∀ g ∈ group ps, ∀ q₁ ∈ g.2, ∀ q₂ ∈ g.2, q₁.key = q₂.key := by
  intro g hg
  match ps, hg with
  | [], hg => simp [group] at hg
  | p :: rest, hg =>
    exact groupAux_runkey rest p.key [p] 1 (by simp) g hg

/-! ## `minMax` computes the extrema -/

theorem foldl_min_le (rest : List ParsedStack) :
    ∀ a : Int, rest.foldl (fun m q => min m q.waiting) a ≤ a := by
  induction rest with
  | nil => intro a; simp
  | cons c cs ih =>
    intro a
    simp only [List.foldl_cons]
    exact (ih (min a c.waiting)).trans (min_le_left _ _)

theorem foldl_min_le_all (rest : List ParsedStack) :
    ∀ a : Int, ∀ q ∈ rest, rest.foldl (fun m q => min m q.waiting) a ≤ q.waiting := by
  induction rest with
  | nil => intro a q hq; simp at hq
  | cons c cs ih =>
    intro a q hq
    simp only [List.foldl_cons]
    rcases List.mem_cons.mp hq with h | h
    · subst h
      exact (foldl_min_le cs (min a q.waiting)).trans (min_le_right _ _)
    · exact ih (min a c.waiting) q h

theorem foldl_min_mem (rest : List ParsedStack) :
    ∀ a : Int, rest.foldl (fun m q => min m q.waiting) a = a ∨
      ∃ q ∈ rest, rest.foldl (fun m q => min m q.waiting) a = q.waiting := by
  induction rest with
  | nil => intro a; exact Or.inl rfl
  | cons c cs ih =>
    intro a
    simp only [List.foldl_cons]
    rcases ih (min a c.waiting) with h | ⟨q, hq, hv⟩
    · rcases min_choice a c.waiting with hm | hm
      · exact Or.inl (by rw [h, hm])
      · exact Or.inr ⟨c, by simp, by rw [h, hm]⟩
    · exact Or.inr ⟨q, by simp [hq], hv⟩

theorem foldl_max_ge (rest : List ParsedStack) :
    ∀ a : Int, a ≤ rest.foldl (fun m q => max m q.waiting) a := by
  induction rest with
  | nil => intro a; simp
  | cons c cs ih =>
    intro a
    simp only [List.foldl_cons]
    exact (le_max_left a c.waiting).trans (ih (max a c.waiting))

theorem foldl_max_ge_all (rest : List ParsedStack) :
    ∀ a : Int, ∀ q ∈ rest, q.waiting ≤ rest.foldl (fun m q => max m q.waiting) a := by
  induction rest with
  | nil => intro a q hq; simp at hq
  | cons c cs ih =>
    intro a q hq
    simp only [List.foldl_cons]
    rcases List.mem_cons.mp hq with h | h
    · subst h
      exact (le_max_right a q.waiting).trans (foldl_max_ge cs (max a q.waiting))
    · exact ih (max a c.waiting) q h

theorem foldl_max_mem (rest : List ParsedStack) :
    ∀ a : Int, rest.foldl (fun m q => max m q.waiting) a = a ∨
      ∃ q ∈ rest, rest.foldl (fun m q => max m q.waiting) a = q.waiting := by
  induction rest with
  | nil => intro a; exact Or.inl rfl
  | cons c cs ih =>
    intro a
    simp only [List.foldl_cons]
    rcases ih (max a c.waiting) with h | ⟨q, hq, hv⟩
    · rcases max_choice a c.waiting with hm | hm
      · exact Or.inl (by rw [h, hm])
      · exact Or.inr ⟨c, by simp, by rw [h, hm]⟩
    · exact Or.inr ⟨q, by simp [hq], hv⟩

theorem minMax_pair (rest : List ParsedStack) : ∀ acc : Int × Int,
    rest.foldl (fun mm q => (min mm.1 q.waiting, max mm.2 q.waiting)) acc =
      (rest.foldl (fun m q => min m q.waiting) acc.1,
       rest.foldl (fun m q => max m q.waiting) acc.2) := by
  induction rest with
  | nil => intro acc; rfl
  | cons c cs ih =>
    intro acc
    simp only [List.foldl_cons]
    rw [ih]

/-- `minMax` on a non-empty run returns the minimum and maximum of the
`waiting` values. -/
theorem minMax_spec (p : ParsedStack) (rest : List ParsedStack) :
    ((minMax (p :: rest)).1 ∈ (p :: rest).map ParsedStack.waiting ∧
      ∀ w ∈ (p :: rest).map ParsedStack.waiting, (minMax (p :: rest)).1 ≤ w) ∧
    ((minMax (p :: rest)).2 ∈ (p :: rest).map ParsedStack.waiting ∧
      ∀ w ∈ (p :: rest).map ParsedStack.waiting, w ≤ (minMax (p :: rest)).2) := by
  have hmm : minMax (p :: rest) =
      (rest.foldl (fun m q => min m q.waiting) p.waiting,
       rest.foldl (fun m q => max m q.waiting) p.waiting) := by
    show rest.foldl (fun mm q => (min mm.1 q.waiting, max mm.2 q.waiting))
        (p.waiting, p.waiting) = _
    rw [minMax_pair]
  rw [hmm]
  refine ⟨⟨?_, ?_⟩, ⟨?_, ?_⟩⟩
  · rcases foldl_min_mem rest p.waiting with h | ⟨q, hq, hv⟩
    · rw [h]; simp
    · rw [hv]
      simp only [List.mem_map, List.mem_cons]
      exact ⟨q, Or.inr hq, rfl⟩
  · intro w hw
    simp only [List.mem_map, List.mem_cons] at hw
    obtain ⟨q, hq, hweq⟩ := hw
    rcases hq with hq | hq
    · rw [← hweq, hq]; exact foldl_min_le rest p.waiting
    · rw [← hweq]; exact foldl_min_le_all rest p.waiting q hq
  · rcases foldl_max_mem rest p.waiting with h | ⟨q, hq, hv⟩
    · rw [h]; simp
    · rw [hv]
      simp only [List.mem_map, List.mem_cons]
      exact ⟨q, Or.inr hq, rfl⟩
  · intro w hw
    simp only [List.mem_map, List.mem_cons] at hw
    obtain ⟨q, hq, hweq⟩ := hw
    rcases hq with hq | hq
    · rw [← hweq, hq]; exact foldl_max_ge rest p.waiting
    · rw [← hweq]; exact foldl_max_ge_all rest p.waiting q hq

/-! ## Claim C5 (aggregation) — confirmed -/

/-- C5: after sorting by key, `group` partitions the records into maximal
equal-key runs, yielded in ascending key order, and every group carries
the run length, the minimum and maximum `waiting` over the run, and the
deduplicated, lexicographically sorted status set of the run. -/
theorem C5_theorem (sts : List ParsedStack) :
    ((group (sortStacks sts)).map Prod.snd).flatten = sortStacks sts ∧
    (∀ g ∈ group (sortStacks sts), g.2 ≠ [] ∧ g.1 = g.2.length) ∧
    (∀ g ∈ group (sortStacks sts), ∀ q₁ ∈ g.2, ∀ q₂ ∈ g.2, q₁.key = q₂.key) ∧
    List.Chain' (fun g₁ g₂ : Nat × List ParsedStack =>
        ∀ q₁ ∈ g₁.2, ∀ q₂ ∈ g₂.2, lexLt q₁.key q₂.key = true)
      (group (sortStacks sts)) ∧
    (∀ g ∈ group (sortStacks sts),
      ((minMax g.2).1 ∈ g.2.map ParsedStack.waiting ∧
        ∀ w ∈ g.2.map ParsedStack.waiting, (minMax g.2).1 ≤ w) ∧
      ((minMax g.2).2 ∈ g.2.map ParsedStack.waiting ∧
        ∀ w ∈ g.2.map ParsedStack.waiting, w ≤ (minMax g.2).2)) ∧
    (∀ g ∈ group (sortStacks sts),
      List.Pairwise (fun a b : List Char => (!lexLt b a) = true)
        (sortedStatuses g.2) ∧
      (sortedStatuses g.2).Nodup ∧
      ∀ s, s ∈ sortedStatuses g.2 ↔ s ∈ g.2.map ParsedStack.status) := by
  refine ⟨group_flatten _, group_nonempty_counts _, group_runkey _,
    group_chain _ (sortStacks_sorted sts).chain', ?_, ?_⟩
  · intro g hg
    obtain ⟨p, rest, hrw⟩ :=
      List.exists_cons_of_ne_nil (group_nonempty_counts _ g hg).1
    rw [hrw]
    exact minMax_spec p rest
  · intro g hg
    exact ⟨sortedStatuses_sorted g.2, sortedStatuses_nodup g.2,
      fun s => sortedStatuses_mem g.2 s⟩

/-- Witness for C5 at the three sample records (two distinct keys). -/
theorem C5_witness :
    ((group (sortStacks c5sts)).map Prod.snd).flatten = sortStacks c5sts ∧
    (∀ g ∈ group (sortStacks c5sts), g.2 ≠ [] ∧ g.1 = g.2.length) ∧
    (∀ g ∈ group (sortStacks c5sts), ∀ q₁ ∈ g.2, ∀ q₂ ∈ g.2, q₁.key = q₂.key) ∧
    List.Chain' (fun g₁ g₂ : Nat × List ParsedStack =>
        ∀ q₁ ∈ g₁.2, ∀ q₂ ∈ g₂.2, lexLt q₁.key q₂.key = true)
      (group (sortStacks c5sts)) ∧
    (∀ g ∈ group (sortStacks c5sts),
      ((minMax g.2).1 ∈ g.2.map ParsedStack.waiting ∧
        ∀ w ∈ g.2.map ParsedStack.waiting, (minMax g.2).1 ≤ w) ∧
      ((minMax g.2).2 ∈ g.2.map ParsedStack.waiting ∧
        ∀ w ∈ g.2.map ParsedStack.waiting, w ≤ (minMax g.2).2)) ∧
    (∀ g ∈ group (sortStacks c5sts),
      List.Pairwise (fun a b : List Char => (!lexLt b a) = true)
        (sortedStatuses g.2) ∧
      (sortedStatuses g.2).Nodup ∧
      ∀ s, s ∈ sortedStatuses g.2 ↔ s ∈ g.2.map ParsedStack.status) :=
  C5_theorem c5sts

/-! ## Claim C6 (error conditions) — corrected -/

theorem getD_drop_one (lines : List (List Char)) (i : Nat) :
    (lines.drop 1).getD i [] = lines.getD (1 + i) [] := by
  rw [List.getD_eq_getElem?_getD, List.getD_eq_getElem?_getD, List.getElem?_drop]

theorem getD_cons_cons_two (a b : List Char) (L : List (List Char)) (n : Nat) :
    (a :: b :: L).getD (n + 2) [] = L.getD n [] := by
  rw [show n + 2 = (n + 1) + 1 from rfl, List.getD_cons_succ, List.getD_cons_succ]

/-- The interior loop succeeds exactly when every pair it visits passes
the function-call and location checks (numeric parses included);
positions are relative to the suffix handed to the loop. -/
theorem parseFrames_isSome_iff (L : List (List Char)) :
    (parseFrames L).isSome = true ↔
      ∀ j, 2 * j + 2 < L.length →
        callOK (L.getD (2 * j) []) = true ∧
        locationOK (L.getD (2 * j + 1) []) = true := by
  induction L using parseFrames.induct with
  | case1 l₁ l₂ l₃ rest h1 =>
    apply iff_of_false
    · simp [parseFrames, h1]
    · intro h
      have h0 := (h 0 (by simp)).1
      simp [callOK, h1] at h0
  | case2 l₁ l₂ l₃ rest fn args h1 h2 =>
    apply iff_of_false
    · simp [parseFrames, h1, h2]
    · intro h
      have h0 := (h 0 (by simp)).2
      simp [locationOK, h2] at h0
  | case3 l₁ l₂ l₃ rest fn args h1 lc h2 ln off hoff hln h3 ih =>
    apply iff_of_false
    · simp [parseFrames, h1, h2, hln, hoff, h3]
    · intro h
      have hnone : ¬ (parseFrames (l₃ :: rest)).isSome = true := by
        rw [h3]
        simp
      rw [ih] at hnone
      push_neg at hnone
      obtain ⟨j, hj, hfailj⟩ := hnone
      have hj2 := h (j + 1) (by simp only [List.length_cons] at hj ⊢; omega)
      rw [show 2 * (j + 1) = 2 * j + 2 by omega,
        show 2 * j + 2 + 1 = (2 * j + 1) + 2 by omega,
        getD_cons_cons_two, getD_cons_cons_two] at hj2
      exact hfailj hj2.1 hj2.2
  | case4 l₁ l₂ l₃ rest fn args h1 lc h2 ln off hoff hln fs2 h3 ih =>
    apply iff_of_true
    · simp [parseFrames, h1, h2, hln, hoff, h3]
    · intro j hj
      match j with
      | 0 =>
        constructor
        · simp [callOK, h1]
        · have hidx : ((l₁ :: l₂ :: l₃ :: rest).getD (2 * 0 + 1) []) = l₂ := rfl
          rw [hidx, locationOK, h2]
          show ((digits lc.linedigits).isSome && (digits lc.offdigits).isSome) = true
          rw [hln, hoff]
          rfl
      | j' + 1 =>
        have hsome : (parseFrames (l₃ :: rest)).isSome = true := by
          rw [h3]; rfl
        have hj2 := (ih.mp hsome) j'
          (by simp only [List.length_cons] at hj ⊢; omega)
        rw [show 2 * (j' + 1) = 2 * j' + 2 by omega,
          show 2 * j' + 2 + 1 = (2 * j' + 1) + 2 by omega,
          getD_cons_cons_two, getD_cons_cons_two]
        exact hj2
  | case5 l₁ l₂ l₃ rest fn args h1 lc h2 hfalse =>
    have hlocfail : locationOK l₂ = false := by
      rw [locationOK, h2]
      show ((digits lc.linedigits).isSome && (digits lc.offdigits).isSome) = false
      rcases hdl : digits lc.linedigits with _ | ln
      · simp [hdl]
      · rcases hdo : digits lc.offdigits with _ | off
        · simp [hdl, hdo]
        · exact absurd (hfalse ln off hdl hdo) (by simp)
    apply iff_of_false
    · rcases hdl : digits lc.linedigits with _ | ln
      · simp [parseFrames, h1, h2, hdl]
      · rcases hdo : digits lc.offdigits with _ | off
        · simp [parseFrames, h1, h2, hdl, hdo]
        · exact absurd (hfalse ln off hdl hdo) (by simp)
    · intro h
      have h0 := (h 0 (by simp)).2
      have hidx : ((l₁ :: l₂ :: l₃ :: rest).getD (2 * 0 + 1) []) = l₂ := rfl
      rw [hidx, hlocfail] at h0
      exact absurd h0 (by simp)
  | case6 t ht =>
    apply iff_of_true
    · match t, ht with
      | [], _ => rfl
      | [a], _ => rfl
      | [a, b], _ => rfl
      | a :: b :: c :: rest, ht => exact (ht a b c rest rfl).elim
    · intro j hj
      exfalso
      match t, ht with
      | [], _ => simp at hj
      | [a], _ => simp at hj
      | [a, b], _ => simp at hj
      | a :: b :: c :: rest, ht => exact (ht a b c rest rfl).elim

/-- Full characterization of a successful `parseStack` by per-line
checks: at least 3 lines, the header passes (match plus numeric parses),
the created-by line passes, the final location line passes, and every
pair the interior loop visits passes — where, when the interior region is
odd, the loop's final pair reaches the created-by line itself. -/
theorem parseStack_isSome_iff (lines : List (List Char)) :
    (parseStack lines).isSome = true ↔
      (3 ≤ lines.length ∧
       headerOK (lines.getD 0 []) = true ∧
       createdOK (lines.getD (lines.length - 2) []) = true ∧
       locationOK (lines.getD (lines.length - 1) []) = true ∧
       ∀ j, 2 * j + 1 < lines.length - 2 →
         callOK (lines.getD (2 * j + 1) []) = true ∧
         locationOK (lines.getD (2 * j + 2) []) = true) := by
  constructor
  · intro h
    obtain ⟨ps, hps⟩ := Option.isSome_iff_exists.mp h
    unfold parseStack at hps
    split at hps
    · exact absurd hps (by simp)
    · next hlen =>
      split at hps
      · exact absurd hps (by simp)
      · next m hm =>
        split at hps
        · next gid wmin hgid hwmin =>
          split at hps
          · exact absurd hps (by simp)
          · next cfn hcfn =>
            split at hps
            · exact absurd hps (by simp)
            · next lc hlc =>
              split at hps
              · next cln coff hcln hcoff =>
                split at hps
                · exact absurd hps (by simp)
                · next fs hfs =>
                  refine ⟨by omega, ?_, ?_, ?_, ?_⟩
                  · rw [headerOK, hm]
                    show ((digits m.id).isSome && (digits m.minutes).isSome) = true
                    rw [hgid, hwmin]
                    rfl
                  · by_cases hsent :
                        lines.getD (lines.length - 2) [] = ("main.main()").data
                    · rw [createdOK, hsent]
                      simp
                    · rw [if_neg hsent] at hcfn
                      rw [createdOK, hcfn]
                      simp
                  · rw [locationOK, hlc]
                    show ((digits lc.linedigits).isSome
                      && (digits lc.offdigits).isSome) = true
                    rw [hcln, hcoff]
                    rfl
                  · intro j hj
                    have hlend : (lines.drop 1).length = lines.length - 1 := by
                      simp
                    have hj2 := (parseFrames_isSome_iff (lines.drop 1)).mp
                      (by rw [hfs]; rfl) j (by rw [hlend]; omega)
                    rw [getD_drop_one, getD_drop_one,
                      show 1 + 2 * j = 2 * j + 1 by omega,
                      show 1 + (2 * j + 1) = 2 * j + 2 by omega] at hj2
                    exact hj2
              · exact absurd hps (by simp)
        · exact absurd hps (by simp)
  · rintro ⟨h3, hhd, hcr, hloc, hloop⟩
    have hnl : ¬ lines.length < 3 := by omega
    rcases hgm : goroutineMatch (lines.getD 0 []) with _ | m
    · rw [headerOK, hgm] at hhd
      exact absurd hhd (by simp)
    · rw [headerOK, hgm] at hhd
      have hhd2 : (digits m.id).isSome = true ∧ (digits m.minutes).isSome = true := by
        have := hhd
        simp only [Bool.and_eq_true] at this
        exact this
      obtain ⟨gid, hgid⟩ := Option.isSome_iff_exists.mp hhd2.1
      obtain ⟨wmin, hwmin⟩ := Option.isSome_iff_exists.mp hhd2.2
      rcases hlm : locationMatch (lines.getD (lines.length - 1) []) with _ | lc
      · rw [locationOK, hlm] at hloc
        exact absurd hloc (by simp)
      · rw [locationOK, hlm] at hloc
        have hloc2 : (digits lc.linedigits).isSome = true
            ∧ (digits lc.offdigits).isSome = true := by
          have := hloc
          simp only [Bool.and_eq_true] at this
          exact this
        obtain ⟨cln, hcln⟩ := Option.isSome_iff_exists.mp hloc2.1
        obtain ⟨coff, hcoff⟩ := Option.isSome_iff_exists.mp hloc2.2
        have hpf : (parseFrames (lines.drop 1)).isSome = true := by
          apply (parseFrames_isSome_iff (lines.drop 1)).mpr
          intro j hj
          have hlend : (lines.drop 1).length = lines.length - 1 := by simp
          rw [hlend] at hj
          have hj2 := hloop j (by omega)
          rw [getD_drop_one, getD_drop_one,
            show 1 + 2 * j = 2 * j + 1 by omega,
            show 1 + (2 * j + 1) = 2 * j + 2 by omega]
          exact hj2
        obtain ⟨fs, hfs⟩ := Option.isSome_iff_exists.mp hpf
        by_cases hsent : lines.getD (lines.length - 2) [] = ("main.main()").data
        · unfold parseStack
          simp only [hnl, ite_false, hgm, hgid, hwmin, hsent, eq_self_iff_true,
            ite_true, hlm, hcln, hcoff, hfs, Option.isSome_some]
        · rw [createdOK, Bool.or_eq_true] at hcr
          rcases hcr with hcr | hcr
          · exact absurd (by simpa using hcr) hsent
          · obtain ⟨cfn, hcm⟩ := Option.isSome_iff_exists.mp hcr
            unfold parseStack
            simp only [hnl, ite_false, hgm, hgid, hwmin, hsent, hcm,
              ite_false, hlm, hcln, hcoff, hfs, Option.isSome_some]

/-- C6 counterexample: a 3-line block whose every line satisfies its
grammar — the header's goroutine id `18446744073709551616` is a decimal
`<uint>` and the header matches `goroutineMatcher` — still fails to
parse, because the id overflows the 64-bit numeric parse; so "fewer than
3 lines or some line violates its assigned grammar" does not cover all
errors. -/
theorem C6_counterexample :
    ([("goroutine 18446744073709551616 [x]:").data,
      ("created by a in goroutine 1").data,
      ("b.go:1").data] : List (List Char)).length = 3 ∧
    (goroutineMatch (("goroutine 18446744073709551616 [x]:").data)).isSome
      = true ∧
    (createdMatch (("created by a in goroutine 1").data)).isSome = true ∧
    (locationMatch (("b.go:1").data)).isSome = true ∧
    parseStack [("goroutine 18446744073709551616 [x]:").data,
      ("created by a in goroutine 1").data,
      ("b.go:1").data] = none := by
  refine ⟨rfl, by decide, by decide, by decide, by decide⟩

/-- C6 (amended): `parseStack` fails exactly when the block has fewer
than 3 lines or some line fails the check the code assigns it — header,
created-by, final location, or an interior loop pair — where a line also
fails when one of its numeric captures fails Go's base-detecting 64-bit
`ParseUint`; and a successful parse takes `waitingMinutes` from the
header's optional minutes clause, zero when the clause is absent. -/
theorem C6_theorem (lines : List (List Char)) :
    ((parseStack lines).isSome = true ↔
      (3 ≤ lines.length ∧
       headerOK (lines.getD 0 []) = true ∧
       createdOK (lines.getD (lines.length - 2) []) = true ∧
       locationOK (lines.getD (lines.length - 1) []) = true ∧
       ∀ j, 2 * j + 1 < lines.length - 2 →
         callOK (lines.getD (2 * j + 1) []) = true ∧
         locationOK (lines.getD (2 * j + 2) []) = true)) ∧
    (∀ ps, parseStack lines = some ps →
      ∃ m, goroutineMatch (lines.getD 0 []) = some m ∧
        (∃ w, digits m.minutes = some w ∧ ps.waiting = toInt64 w) ∧
        (m.minutes = [] → ps.waiting = 0)) := by
  refine ⟨parseStack_isSome_iff lines, ?_⟩
  intro ps hps
  obtain ⟨-, m, fs, hm, -, -, -, -, -, w, hw, hwait⟩ :=
    parseStack_some_parts lines ps hps
  refine ⟨m, hm, ⟨w, hw, hwait⟩, ?_⟩
  intro hmin
  rw [hmin] at hw
  have hw0 : w = 0 := by
    have h0 : digits ([] : List Char) = some 0 := rfl
    rw [h0] at hw
    exact (Option.some.inj hw).symm
  rw [hwait, hw0]
  rfl

/-- Witness for C6 at a concrete 5-line block. -/
theorem C6_witness :
    ((parseStack c6blk).isSome = true ↔
      (3 ≤ c6blk.length ∧
       headerOK (c6blk.getD 0 []) = true ∧
       createdOK (c6blk.getD (c6blk.length - 2) []) = true ∧
       locationOK (c6blk.getD (c6blk.length - 1) []) = true ∧
       ∀ j, 2 * j + 1 < c6blk.length - 2 →
         callOK (c6blk.getD (2 * j + 1) []) = true ∧
         locationOK (c6blk.getD (2 * j + 2) []) = true)) ∧
    (∀ ps, parseStack c6blk = some ps →
      ∃ m, goroutineMatch (c6blk.getD 0 []) = some m ∧
        (∃ w, digits m.minutes = some w ∧ ps.waiting = toInt64 w) ∧
        (m.minutes = [] → ps.waiting = 0)) :=
  C6_theorem c6blk

end StackClean
